import Mathlib

set_option maxRecDepth 4000

/-!
Shallow embedding of the `ethicops` maintenance scripts:
`fix_images.py` (image-link repair engine) and
`tools_wire_ethicops_email.py` (mailto normalization and contact footer).

Strings are modelled as `List Char`; all Python text operations
(`str.lower`, `str.strip`, `str.split`, regex scans of the concrete
patterns appearing in the scripts, `difflib` ratio matching, `pathlib`
name/stem extraction) are translated to executable structural
recursions so that concrete runs reduce inside the kernel.
-/

namespace EthicOps

/-- Python strings, modelled as lists of characters. -/
abbrev Str := List Char

/-- Shorthand turning a Lean string literal into the `List Char` model. -/
def lc (s : String) : Str := s.data

/-- Python `\s` on the ASCII range (space, tab, newline, CR, VT, FF). -/
def isPySpace (c : Char) : Bool :=
  c = ' ' || c = '\t' || c = '\n' || c = '\r' || c = '\x0b' || c = '\x0c'

/-- Python `\w` on the ASCII range: letters, digits and underscore. -/
def isWordChar (c : Char) : Bool := c.isAlphanum || c = '_'

/-- Python `str.lower` on the ASCII range. -/
def pyLower (c : Char) : Char := c.toLower

/-- Lower-case a whole string, as Python `str.lower()`. -/
def lowerL (s : Str) : Str := s.map pyLower

/-- Python `str.strip()` (ASCII whitespace at both ends). -/
def pyStrip (s : Str) : Str :=
  ((s.dropWhile isPySpace).reverse.dropWhile isPySpace).reverse

/-- Python `str.split()` with no separator: whitespace runs, empties dropped. -/
def pySplitWs (s : Str) : List Str :=
  (s.splitOnP isPySpace).filter (fun w => decide (w ≠ []))

/-- Python `s.split(sep, 1)[0]`: the part before the first occurrence of a char. -/
def takeUntilChar (c : Char) (s : Str) : Str := s.takeWhile (fun d => decide (d ≠ c))

namespace FixImages

/-- `fix_images.py` line 5: the allowed image extensions (with leading dot). -/
def VALID_EXTS : List Str :=
  [lc ".jpg", lc ".jpeg", lc ".png", lc ".webp", lc ".gif", lc ".svg", lc ".avif"]

/-- The alternatives of `FIRST_EXT_RE` (line 8), without the leading dot. -/
def EXT_ALTS : List Str :=
  [lc "jpg", lc "jpeg", lc "png", lc "webp", lc "gif", lc "svg", lc "avif"]

/-- State-machine pass for `re.sub(r'[\s_]+', '-', s)` in `slug` (line 12):
`inRun` records whether the previous character belonged to the class. -/
def collapseSpaceUnderscore : Bool → Str → Str
  | _, [] => []
  | inRun, c :: cs =>
    if isPySpace c || c = '_' then
      if inRun then collapseSpaceUnderscore true cs
      else '-' :: collapseSpaceUnderscore true cs
    else c :: collapseSpaceUnderscore false cs

/-- Characters kept by `re.sub(r'[^a-z0-9\-]+', '', s)` in `slug` (line 13). -/
def isSlugChar (c : Char) : Bool :=
  ('a' ≤ c && c ≤ 'z') || ('0' ≤ c && c ≤ '9') || c = '-'

/-- State-machine pass for `re.sub(r'-{2,}', '-', s)` in `slug` (line 14):
emits the first hyphen of each run and drops the rest. -/
def collapseHyphens : Bool → Str → Str
  | _, [] => []
  | inRun, c :: cs =>
    if c = '-' then
      if inRun then collapseHyphens true cs
      else '-' :: collapseHyphens true cs
    else c :: collapseHyphens false cs

/-- Python `str.strip('-')` in `slug` (line 14). -/
def stripHyphens (s : Str) : Str :=
  ((s.dropWhile (fun c => c = '-')).reverse.dropWhile (fun c => c = '-')).reverse

/-- `slug` (lines 10-15): lower-case, collapse `[\s_]+` runs to `-`,
drop characters outside `[a-z0-9-]`, collapse hyphen runs, strip hyphens. -/
def slug (s : Str) : Str :=
  stripHyphens (collapseHyphens false
    ((collapseSpaceUnderscore false (lowerL s)).filter isSlugChar))

/-- The `\b` word boundary after a matched extension: the rest of the string
is empty or starts with a non-word character (the character before is always
a word character here). -/
def extBoundaryOk : Str → Bool
  | [] => true
  | a :: _ => ¬ isWordChar a

/-- One attempt of `FIRST_EXT_RE` anchored at the start of `s`: a literal dot,
one of the alternatives (case-insensitive, tried in the regex's order), and the
`\b` word boundary.  Returns the number of characters matched. -/
def extMatchLen (s : Str) : Option Nat :=
  match s with
  | '.' :: rest =>
    EXT_ALTS.findSome? fun e =>
      if lowerL (rest.take e.length) == e && extBoundaryOk (rest.drop e.length) then
        some (1 + e.length)
      else none
  | _ => none

/-- End position (exclusive) of the first `FIRST_EXT_RE` match in `s`,
scanning positions left to right as `re.search` does. -/
def firstExtEnd : Str → Option Nat
  | [] => none
  | c :: cs =>
    match extMatchLen (c :: cs) with
    | some L => some L
    | none => (firstExtEnd cs).map Nat.succ

/-- `truncate_after_first_ext` (lines 44-48). -/
def truncate_after_first_ext (name : Str) : Option Str :=
  (firstExtEnd name).map (fun e => name.take e)

/-- `normalize_url` (lines 50-55): strip query string and fragment, and with
`make_relative` drop one leading `/`. -/
def normalize_url (url : Str) (make_relative : Bool) : Str :=
  let u := takeUntilChar '#' (takeUntilChar '?' url)
  if make_relative ∧ u.head? = some '/' then u.tail else u

/-- `pathlib.PurePath.name`: the last path component, with empty and `.`
components dropped (`Path('a/b/').name = 'b'`, `Path('.').name = ''`). -/
def pathName (s : Str) : Str :=
  ((s.splitOn '/').filter (fun p => decide (p ≠ []) && decide (p ≠ ['.']))).getLast?.getD []

/-- Index of the last `.` in a name, if any. -/
def lastDotIdx (s : Str) : Option Nat :=
  match s.reverse.findIdx? (fun c => c = '.') with
  | some r => some (s.length - 1 - r)
  | none => none

/-- `pathlib.PurePath.stem` of a bare file name: the name without its last
suffix; the dot counts only when `0 < i < len - 1` (CPython's rule, so
`.bashrc` and `a.` keep their full name). -/
def pyStem (n : Str) : Str :=
  match lastDotIdx n with
  | some i => if 0 < i ∧ i + 1 < n.length then n.take i else n
  | none => n

/-- `pathlib.PurePath.suffix` of a bare file name, under the same rule. -/
def pySuffix (n : Str) : Str :=
  match lastDotIdx n with
  | some i => if 0 < i ∧ i + 1 < n.length then n.drop i else []
  | none => []

/-- A catalog as the Link Repair Engine consumes it: the set of known base
names and the insertion-ordered slug-to-name map. -/
structure Catalog where
  basenames : List Str
  slug_map : List (Str × Str)

/-- `build_catalog` (lines 31-42) on the base names found by the directory
walk: keep names whose lower-cased suffix is allowed, collect the base names,
and build the slug map with first-seen-wins (`dict.setdefault`). -/
def build_catalog (names : List Str) : Catalog :=
  let files := names.filter (fun n => VALID_EXTS.contains (lowerL (pySuffix n)))
  let sm := files.foldl
    (fun m n => if (m.lookup (slug (pyStem n))).isSome then m
                else m ++ [(slug (pyStem n), n)]) []
  ⟨files, sm⟩

/-- The noise token removed before fuzzy matching (line 77). -/
def XRES : Str := lc "xresdefault"

/-- Fuelled scanner for `re.sub(r'(xresdefault)+', '', s)` (line 77): at each
position, consecutive repetitions of the token are consumed and dropped;
other characters are emitted.  Matched spans of the original string are
never re-scanned, exactly as `re.sub` behaves. -/
def removeXresGo : Nat → Str → Str
  | 0, s => s
  | _ + 1, [] => []
  | f + 1, c :: cs =>
    if XRES.isPrefixOf (c :: cs) then removeXresGo f ((c :: cs).drop XRES.length)
    else c :: removeXresGo f cs

/-- `re.sub(r'(xresdefault)+', '', s)` with adequate fuel. -/
def removeXres (s : Str) : Str := removeXresGo (s.length + 1) s

/-- Length of the longest common prefix of two strings. -/
def commonRun : Str → Str → Nat
  | a :: as, b :: bs => if a = b then commonRun as bs + 1 else 0
  | _, _ => 0

/-- For a fixed suffix `adrop = a.drop i`, the best `(i, j, k)` over the
suffixes of `b` starting at index `j`: the longest common run, earliest `j`
winning ties. -/
def lmRow (adrop : Str) (i : Nat) : Str → Nat → Nat × Nat × Nat
  | [], _ => (i, 0, 0)
  | b :: btl, j =>
    let k := commonRun adrop (b :: btl)
    let r := lmRow adrop i btl (j + 1)
    if r.2.2 ≤ k then (i, j, k) else r

/-- Best triple over the suffixes of `a` starting at index `i`, earliest `i`
winning ties. -/
def lmCols (b : Str) : Str → Nat → Nat × Nat × Nat
  | [], _ => (0, 0, 0)
  | a :: atl, i =>
    let x := lmRow (a :: atl) i b 0
    let r := lmCols b atl (i + 1)
    if r.2.2 ≤ x.2.2 then x else r

/-- `difflib.SequenceMatcher.find_longest_match` without junk (the catalog
slugs and queries here are far below the 200-character autojunk threshold):
the longest common run, ties broken by least start in `a`, then least start
in `b` — the tie-break realised by difflib's strictly-greater update over
ascending indices. -/
def lmBest (a b : Str) : Nat × Nat × Nat := lmCols b a 0

/-- Total size of difflib's matching blocks (Ratcliff/Obershelp recursion),
with fuel bounding the recursion depth. -/
def matchTotalGo : Nat → Str → Str → Nat
  | 0, _, _ => 0
  | f + 1, a, b =>
    let ijk := lmBest a b
    if ijk.2.2 = 0 then 0
    else
      ijk.2.2 + matchTotalGo f (a.take ijk.1) (b.take ijk.2.1)
        + matchTotalGo f (a.drop (ijk.1 + ijk.2.2)) (b.drop (ijk.2.1 + ijk.2.2))

/-- Total matched size `M` for `SequenceMatcher(a, b)` with adequate fuel. -/
def matchTotal (a b : Str) : Nat := matchTotalGo (a.length + b.length + 1) a b

/-- Numerator of `SequenceMatcher.ratio()` as an exact rational
(`2*M`, or `1/1` for two empty sequences where difflib returns `1.0`). -/
def ratioNum (cand word : Str) : Nat :=
  if cand.length + word.length = 0 then 1 else 2 * matchTotal cand word

/-- Denominator of `SequenceMatcher.ratio()` as an exact rational. -/
def ratioDen (cand word : Str) : Nat :=
  if cand.length + word.length = 0 then 1 else cand.length + word.length

/-- `ratio() >= 0.6`: for the short strings at hand the float comparison in
`get_close_matches` agrees with the exact rational comparison `10*2M ≥ 6*T`. -/
def qualifies (cand word : Str) : Bool :=
  10 * ratioNum cand word ≥ 6 * ratioDen cand word

/-- Python `<` on strings: lexicographic comparison by code point. -/
def pyStrLt : Str → Str → Bool
  | [], [] => false
  | [], _ :: _ => true
  | _ :: _, [] => false
  | a :: as, b :: bs => if a = b then pyStrLt as bs else decide (a < b)

/-- The ordering used by `heapq.nlargest(1, [(ratio, x), ...])`: a candidate
beats the incumbent if its ratio is larger, or equal with the larger string. -/
def betterCand (k b word : Str) : Bool :=
  let cross₁ := ratioNum k word * ratioDen b word
  let cross₂ := ratioNum b word * ratioDen k word
  cross₂ < cross₁ || (cross₁ = cross₂ && pyStrLt b k)

/-- One step of the best-candidate fold: a qualifying key replaces the
incumbent exactly when it is better. -/
def gcmStep (word : Str) (best : Option Str) (k : Str) : Option Str :=
  if qualifies k word then
    match best with
    | none => some k
    | some b => if betterCand k b word then some k else best
  else best

/-- `difflib.get_close_matches(word, keys, n=1, cutoff=0.6)`, as the single
best qualifying candidate (the `real_quick_ratio`/`quick_ratio` pre-filters
are upper bounds of `ratio` and do not change the result set). -/
def getCloseMatches1 (word : Str) (keys : List Str) : Option Str :=
  keys.foldl (gcmStep word) none

/-- The prefixes skipped unconditionally by `maybe_fix_url` (line 60). -/
def SKIP_PREFIXES : List Str :=
  [lc "http:", lc "https:", lc "data:", lc "mailto:", lc "#"]

/-- Steps 5 and 6 of `maybe_fix_url` (lines 75-86): fuzzy slug matching, then
the bare-name re-check (line 83, unreachable after the exact match), then
`None`. -/
def maybeFixUrlFuzzy (cat : Catalog) (images_web_root : Str) (fname norm : Str) :
    Option Str :=
  let s := removeXres (slug (pyStem (pathName fname)))
  match getCloseMatches1 s (cat.slug_map.map Prod.fst) with
  | some c => some (images_web_root ++ ((cat.slug_map.lookup c).getD []))
  | none =>
    if norm = fname ∧ cat.basenames.contains fname then
      some (images_web_root ++ fname)
    else none

/-- `maybe_fix_url` (lines 57-86), with the catalog and the
`images_web_root`/`make_relative` arguments exactly as passed by the callers. -/
def maybe_fix_url (cat : Catalog) (images_web_root : Str) (make_relative : Bool)
    (url : Str) : Option Str :=
  if SKIP_PREFIXES.any (fun p => p.isPrefixOf url) then none
  else
    let norm := normalize_url url make_relative
    let fname := pathName norm
    if cat.basenames.contains fname then
      let new_url := images_web_root ++ fname
      if new_url ≠ url then some new_url else none
    else
      match truncate_after_first_ext fname with
      | some cut =>
        if cut ≠ [] ∧ cat.basenames.contains cut then some (images_web_root ++ cut)
        else maybeFixUrlFuzzy cat images_web_root fname norm
      | none => maybeFixUrlFuzzy cat images_web_root fname norm

/-- The canonical images-web-root prefix chosen in `process_html`
(lines 106, 147, 155, 173): `images/` with `--make-paths-relative`,
`/images/` otherwise. -/
def webRoot (make_relative : Bool) : Str :=
  if make_relative then lc "images/" else lc "/images/"

/-- Python `" ".join(tokens)`. -/
def joinSpace (ts : List Str) : Str := List.intercalate [' '] ts

/-- Python `", ".join(out)`. -/
def joinCommaSpace (ts : List Str) : Str := List.intercalate (lc ", ") ts

/-- One descriptor of `fix_srcset` (lines 91-98): strip, split into URL token
and size/density suffix, repair the URL, and rejoin; empty entries dropped. -/
def fixSrcsetPart (cat : Catalog) (images_web_root : Str) (make_relative : Bool)
    (rawPart : Str) : Option Str :=
  let part := pyStrip rawPart
  if part = [] then none
  else
    let tokens := pySplitWs part
    let url := tokens.headD []
    let rest := joinSpace tokens.tail
    let nu :=
      match maybe_fix_url cat images_web_root make_relative url with
      | some v => if v = [] then url else v
      | none => url
    some (pyStrip (nu ++ (if rest = [] then [] else ' ' :: rest)))

/-- `fix_srcset` (lines 88-99). -/
def fix_srcset (cat : Catalog) (images_web_root : Str) (make_relative : Bool)
    (val : Str) : Str :=
  joinCommaSpace ((val.splitOn ',').filterMap
    (fixSrcsetPart cat images_web_root make_relative))

/-- The eligibility filter of `repl_attr_safe`/`repl_css` (lines 150, 168):
the value contains the literal `/images/` or ends in an allowed extension
(case-insensitively). -/
def eligibleVal (val : Str) : Bool :=
  (List.range (val.length + 1)).any (fun i => (lc "/images/").isPrefixOf (val.drop i))
    || VALID_EXTS.any (fun e => e.isSuffixOf (lowerL val))

/-- The candidate replacement computed by `repl_attr_safe` (lines 136-156):
`srcset` values always go through `fix_srcset`; all other matched attributes
(`src` and `href` alike) pass the eligibility filter and then `maybe_fix_url`. -/
def attrNewVal (cat : Catalog) (make_relative : Bool) (attr val : Str) :
    Option Str :=
  if lowerL attr = lc "srcset" then
    some (fix_srcset cat (webRoot make_relative) make_relative val)
  else if eligibleVal val then
    maybe_fix_url cat (webRoot make_relative) make_relative val
  else none

/-- The Python truthiness test `if new_val and new_val != val` guarding the
replacement and the counter (lines 157-159). -/
def attrChangeTest (new? : Option Str) (val : Str) : Bool :=
  match new? with
  | some nv => nv ≠ [] && nv ≠ val
  | none => false

/-- The candidate replacement computed by `repl_css` (lines 165-178). -/
def cssNewVal (cat : Catalog) (make_relative : Bool) (val : Str) : Option Str :=
  if eligibleVal val then maybe_fix_url cat (webRoot make_relative) make_relative val
  else none

/-- An anchored match of `ATTR_RE` (line 6): the attribute text as written,
the quote character, the value, and the remaining input after the match. -/
structure AttrMatch where
  attrText : Str
  quote : Char
  val : Str
  rest : Str

/-- Case-insensitive literal match: on success returns the consumed original
characters and the remainder. -/
def ciPrefixSplit (pat : Str) (s : Str) : Option (Str × Str) :=
  if lowerL (s.take pat.length) == pat && decide (pat.length ≤ s.length) then
    some (s.take pat.length, s.drop pat.length)
  else none

/-- `\s*=\s*(['"])([^'"]+)\2` anchored after a matched attribute name.
`\s*` is greedy with nothing to backtrack into, the value class excludes both
quote characters, so the match is deterministic: the maximal value run must be
followed by the opening quote character. -/
def attrTail (s : Str) : Option (Char × Str × Str) :=
  let r1 := s.dropWhile isPySpace
  match r1 with
  | '=' :: r2 =>
    let r3 := r2.dropWhile isPySpace
    match r3 with
    | q :: r4 =>
      if q = '"' ∨ q = '\'' then
        let v := r4.takeWhile (fun c => decide (c ≠ '"') && decide (c ≠ '\''))
        if v = [] then none
        else
          match r4.drop v.length with
          | q2 :: r5 => if q2 = q then some (q, v, r5) else none
          | [] => none
      else none
    | [] => none
  | _ => none

/-- `ATTR_RE` anchored at the start of `s`, with the alternation
`src|srcset|href` tried in the regex's order. -/
def matchAttrAt (s : Str) : Option AttrMatch :=
  [lc "src", lc "srcset", lc "href"].findSome? fun alt =>
    match ciPrefixSplit alt s with
    | some (at_, r) =>
      match attrTail r with
      | some (q, v, rest) => some ⟨at_, q, v, rest⟩
      | none => none
    | none => none

/-- An anchored match of `CSS_URL_RE` (line 7): the value and the remainder.
The optional quote is greedy; if a quote is present the quoted branch is the
only viable one (the value class excludes quotes), otherwise the bare branch
must end exactly at `)` since the value class excludes `)` and absorbs
whitespace. -/
def matchCssAt (s : Str) : Option (Str × Str) :=
  match ciPrefixSplit (lc "url(") s with
  | some (_, r) =>
    let r1 := r.dropWhile isPySpace
    match r1 with
    | q :: r2 =>
      if q = '"' ∨ q = '\'' then
        let v := r2.takeWhile (fun c => decide (c ≠ '"') && decide (c ≠ '\'') && decide (c ≠ ')'))
        if v = [] then none
        else
          match r2.drop v.length with
          | q2 :: r3 =>
            if q2 = q then
              match r3.dropWhile isPySpace with
              | ')' :: r4 => some (v, r4)
              | _ => none
            else none
          | [] => none
      else
        let v := r1.takeWhile (fun c => decide (c ≠ '"') && decide (c ≠ '\'') && decide (c ≠ ')'))
        if v = [] then none
        else
          match r1.drop v.length with
          | ')' :: r3 => some (v, r3)
          | _ => none
    | [] => none
  | none => none

/-- Fuelled scanner for `ATTR_RE.sub(repl_attr_safe, text)` (line 162): at
each position try the anchored match; replacements rebuild
`attr=QvalQ` (whitespace around `=` dropped, quote style preserved),
unchanged matches emit the original span, and the counter increments exactly
when the change test fires. -/
def subAttrGo (cat : Catalog) (make_relative : Bool) : Nat → Str → Str × Nat
  | 0, s => (s, 0)
  | _ + 1, [] => ([], 0)
  | f + 1, c :: cs =>
    match matchAttrAt (c :: cs) with
    | some m =>
      let new? := attrNewVal cat make_relative m.attrText m.val
      let out := subAttrGo cat make_relative f m.rest
      if attrChangeTest new? m.val then
        (m.attrText ++ '=' :: m.quote :: (new?.getD []) ++ m.quote :: out.1, out.2 + 1)
      else
        ((c :: cs).take ((c :: cs).length - m.rest.length) ++ out.1, out.2)
    | none =>
      let out := subAttrGo cat make_relative f cs
      (c :: out.1, out.2)

/-- Fuelled scanner for `CSS_URL_RE.sub(repl_css, new_text)` (line 180):
replacements are rewritten as `url("new_val")`. -/
def subCssGo (cat : Catalog) (make_relative : Bool) : Nat → Str → Str × Nat
  | 0, s => (s, 0)
  | _ + 1, [] => ([], 0)
  | f + 1, c :: cs =>
    match matchCssAt (c :: cs) with
    | some (v, rest) =>
      let new? := cssNewVal cat make_relative v
      let out := subCssGo cat make_relative f rest
      if attrChangeTest new? v then
        (lc "url(\"" ++ (new?.getD []) ++ lc "\")" ++ out.1, out.2 + 1)
      else
        ((c :: cs).take ((c :: cs).length - rest.length) ++ out.1, out.2)
    | none =>
      let out := subCssGo cat make_relative f cs
      (c :: out.1, out.2)

/-- The attribute matches visited by the `ATTR_RE` scan, in scan order:
pairs of attribute text and value.  The scan structure is identical to
`subAttrGo`; the list does not depend on the replacements because the
scanner always resumes at the original text after each match. -/
def attrMatchList : Nat → Str → List (Str × Str)
  | 0, _ => []
  | _ + 1, [] => []
  | f + 1, c :: cs =>
    match matchAttrAt (c :: cs) with
    | some m => (m.attrText, m.val) :: attrMatchList f m.rest
    | none => attrMatchList f cs

/-- The CSS `url(...)` values visited by the `CSS_URL_RE` scan, in scan
order. -/
def cssMatchList : Nat → Str → List Str
  | 0, _ => []
  | _ + 1, [] => []
  | f + 1, c :: cs =>
    match matchCssAt (c :: cs) with
    | some (v, rest) => v :: cssMatchList f rest
    | none => cssMatchList f cs

/-- The pure text transformation of `process_html` (lines 101-180): the
attribute pass followed by the CSS pass, returning the rewritten text and the
total change count. -/
def processHtmlText (cat : Catalog) (make_relative : Bool) (text : Str) :
    Str × Nat :=
  let a := subAttrGo cat make_relative (text.length + 1) text
  let b := subCssGo cat make_relative (a.1.length + 1) a.1
  (b.1, a.2 + b.2)

/-- A filesystem mutation performed by `process_html`. -/
inductive FsOp where
  | writeBackup (path : Str) (content : Str)
  | writeFile (path : Str) (content : Str)
deriving DecidableEq

/-- The conventional backup path `path.with_suffix(path.suffix + ".bak")`
(line 183); re-appending the removed suffix makes this the original path
plus `.bak`. -/
def bakPath (p : Str) : Str := p ++ lc ".bak"

/-- The write-back step of `process_html` (lines 182-186): nothing is written
when the change count is zero (Python falsiness) or `write` is false;
otherwise the backup is written only when absent, then the file is
overwritten. -/
def rewritePlan (path origText newText : Str) (changed : Nat) (write : Bool)
    (backupExists : Bool) : List FsOp :=
  if changed ≠ 0 ∧ write then
    (if backupExists then [] else [FsOp.writeBackup (bakPath path) origText])
      ++ [FsOp.writeFile path newText]
  else []

end FixImages

namespace EmailTool

/-- `tools_wire_ethicops_email.py` line 8: the single canonical domain. -/
def DOMAIN : Str := lc "ethicops.org"

/-- `local_map` (lines 12-19): role alias to canonical local part. -/
def local_map : List (Str × Str) :=
  [(lc "hello", lc "hello"), (lc "contact", lc "hello"), (lc "info", lc "hello"),
   (lc "support", lc "support"), (lc "help", lc "support"),
   (lc "security", lc "security"),
   (lc "press", lc "press"), (lc "media", lc "press"),
   (lc "billing", lc "billing"), (lc "sales", lc "billing"),
   (lc "abuse", lc "abuse"), (lc "postmaster", lc "postmaster")]

/-- `rewrite_mailto` (lines 48-54) applied to one regex match: `g0` is the
full matched text, `lp`/`dom`/`query` its groups (the query group defaulting
to the empty string).  Known lower-cased aliases are rewritten to the
canonical local part at the fixed domain with the query appended; unknown
aliases return the match unchanged. -/
def rewrite_mailto (g0 lp _dom query : Str) : Str :=
  match local_map.lookup (lowerL lp) with
  | some nl => lc "mailto:" ++ nl ++ '@' :: DOMAIN ++ query
  | none => g0

/-- `footer_block` (lines 22-31) after `.strip().format(...)`: the exact
contact block inserted into each page. -/
def footer_block : Str := lc "<div id=\"contacts-ethicops\" style=\"margin-top:1.25rem;font-size:.95rem;line-height:1.5\">\n  <strong>Contact EthicOps:</strong>\n  <a href=\"mailto:hello@ethicops.org?subject=General%20Inquiry%20-%20EthicOps\">hello@ethicops.org</a> &middot;\n  <a href=\"mailto:support@ethicops.org?subject=Support%20Request%20-%20Kame-Ha\">support@ethicops.org</a> &middot;\n  <a href=\"mailto:security@ethicops.org?subject=Vulnerability%20Disclosure%20-%20EthicOps\">security@ethicops.org</a> &middot;\n  <a href=\"mailto:press@ethicops.org?subject=Media%20Inquiry%20-%20EthicOps\">press@ethicops.org</a> &middot;\n  <a href=\"mailto:billing@ethicops.org?subject=Billing%20Question%20-%20EthicOps\">billing@ethicops.org</a>\n</div>"

/-- The (lower-case) opening marker of the contact block. -/
def contactsMarker : Str := lc "<div id=\"contacts-ethicops\""

/-- The (lower-case) opening marker of the legacy block. -/
def autoMarker : Str := lc "<div id=\"auto-contacts\""

/-- The closing tag sought by the non-greedy `.*?</div>`. -/
def divClose : Str := lc "</div>"

/-- `</footer>`, the first insertion target. -/
def footerClose : Str := lc "</footer>"

/-- `</body>`, the second insertion target. -/
def bodyClose : Str := lc "</body>"

/-- Number of occurrences of `pat` in `s` (as start positions). -/
def countOcc (pat : Str) : Str → Nat
  | [] => 0
  | c :: rest => (if pat.isPrefixOf (c :: rest) then 1 else 0) + countOcc pat rest

/-- Index of the first occurrence of `pat` in `s`, if any. -/
def findOcc (pat : Str) : Str → Option Nat
  | [] => none
  | c :: rest =>
    if pat.isPrefixOf (c :: rest) then some 0 else (findOcc pat rest).map Nat.succ

/-- Case-insensitive count of contact-block markers in a text. -/
def countMarker (s : Str) : Nat := countOcc contactsMarker (lowerL s)

/-- Case-insensitive count of legacy-block markers in a text. -/
def countAuto (s : Str) : Nat := countOcc autoMarker (lowerL s)

/-- Fuelled scanner for `re.sub(mark + r'.*?</div>\s*', '', html, flags=I|S)`
(lines 58-59): at the first case-insensitive marker occurrence the non-greedy
`.*?` runs to the first later `</div>`, the greedy `\s*` absorbs following
whitespace, and scanning resumes after the removed span.  When no `</div>`
follows a marker, no later start position can complete a match either, so the
rest is emitted unchanged. -/
def removeBlocksGo (mark : Str) : Nat → Str → Str
  | 0, s => s
  | _ + 1, [] => []
  | f + 1, c :: cs =>
    if mark.isPrefixOf (lowerL (c :: cs)) then
      match findOcc divClose (lowerL ((c :: cs).drop mark.length)) with
      | some j =>
        removeBlocksGo mark f
          (((c :: cs).drop (mark.length + j + divClose.length)).dropWhile isPySpace)
      | none => c :: cs
    else c :: removeBlocksGo mark f cs

/-- Block removal with adequate fuel. -/
def removeBlocks (mark : Str) (s : Str) : Str := removeBlocksGo mark (s.length + 1) s

/-- The insertion step of `insert_footer` (lines 60-65): before the first
case-insensitive `</footer>` if present, else before the first `</body>`,
else appended at the end (the replacement writes the closing tag in lower
case, as the literal replacement string does). -/
def insertBlock (t : Str) : Str :=
  match findOcc footerClose (lowerL t) with
  | some i => t.take i ++ footer_block ++ '\n' :: footerClose ++ t.drop (i + footerClose.length)
  | none =>
    match findOcc bodyClose (lowerL t) with
    | some i => t.take i ++ footer_block ++ '\n' :: bodyClose ++ t.drop (i + bodyClose.length)
    | none => t ++ '\n' :: footer_block ++ ['\n']

/-- `insert_footer` (lines 56-65): remove legacy and current blocks, then
insert a fresh block. -/
def insert_footer (html : Str) : Str :=
  insertBlock (removeBlocks contactsMarker (removeBlocks autoMarker html))

end EmailTool

end EthicOps

namespace EthicOps

namespace FixImages

/-- Every `some` result of the fuzzy tail of `maybe_fix_url` is the web root
followed by a catalog-derived name. -/
theorem maybeFixUrlFuzzy_shape (cat : Catalog) (root fname norm v : Str)
    (h : maybeFixUrlFuzzy cat root fname norm = some v) : ∃ nm, v = root ++ nm := by
  rw [maybeFixUrlFuzzy.eq_def] at h
  dsimp only at h
  split at h
  · exact ⟨_, (Option.some.inj h).symm⟩
  · split at h
    · exact ⟨_, (Option.some.inj h).symm⟩
    · exact Option.noConfusion h

/-- Every `some` result of `maybe_fix_url` is the web root followed by a
catalog-derived name. -/
theorem maybe_fix_url_root_shape (cat : Catalog) (root : Str) (rel : Bool)
    (url v : Str) (h : maybe_fix_url cat root rel url = some v) :
    ∃ nm, v = root ++ nm := by
  rw [maybe_fix_url.eq_def] at h
  dsimp only at h
  split at h
  · exact Option.noConfusion h
  · split at h
    · split at h
      · exact ⟨_, (Option.some.inj h).symm⟩
      · exact Option.noConfusion h
    · split at h
      · split at h
        · exact ⟨_, (Option.some.inj h).symm⟩
        · exact maybeFixUrlFuzzy_shape _ _ _ _ _ h
      · exact maybeFixUrlFuzzy_shape _ _ _ _ _ h

/-- C1: the Link Repair Engine is not idempotent, contradicting the spec's
idempotence requirement.  With the catalog built from the files
`a b.jpg` and `a.png` (a file name containing a space) and relative paths,
the first run rewrites `srcset="ab.jpg 1x"` to `srcset="images/a b.jpg 1x"`
and reports one change, and the second run — required by the spec to be a
no-op with count zero — splits the rewritten URL at its space, rewrites the
value again to `srcset="images/a.png b.jpg 1x"`, and reports one further
change. -/
theorem c1_second_run_not_noop :
    processHtmlText (build_catalog [lc "a b.jpg", lc "a.png"]) true
        (lc "<img srcset=\"ab.jpg 1x\">")
      = (lc "<img srcset=\"images/a b.jpg 1x\">", 1) ∧
    processHtmlText (build_catalog [lc "a b.jpg", lc "a.png"]) true
        (lc "<img srcset=\"images/a b.jpg 1x\">")
      = (lc "<img srcset=\"images/a.png b.jpg 1x\">", 1) := by decide

/-- C2 counterexample: the claim asserts that for every catalog containing
`thumbnail.jpg` the value `thumbnail.jpgxresdefault.jpg` resolves via
extension-truncation to `images/thumbnail.jpg`.  In fact `FIRST_EXT_RE`
carries a `\b` word boundary, so the first `.jpg` (followed by the word
character `x`) does not match: the truncation step returns the whole string,
and with the catalog `{thumbnail.jpg, thumbnailjpg.png}` the value instead
resolves through the fuzzy-slug step to `images/thumbnailjpg.png`. -/
theorem c2_truncation_counterexample :
    truncate_after_first_ext (lc "thumbnail.jpgxresdefault.jpg")
      = some (lc "thumbnail.jpgxresdefault.jpg") ∧
    maybe_fix_url (build_catalog [lc "thumbnail.jpg", lc "thumbnailjpg.png"])
        (lc "images/") true (lc "thumbnail.jpgxresdefault.jpg")
      = some (lc "images/thumbnailjpg.png") := by decide

/-- C2 as amended: truncation cuts immediately after the first occurrence of
an allowed extension that is followed by a word boundary (a non-word
character or the end of the name): `a.jpg.png` truncates to `a.jpg`, while in
`thumbnail.jpgxresdefault.jpg` the first `.jpg` is followed by the word
character `x`, so truncation returns the whole name, the truncation step
finds no catalog match, and with catalog exactly `{thumbnail.jpg}` the value
resolves through the fuzzy-slug step to `images/thumbnail.jpg`. -/
theorem c2_boundary_truncation_amended :
    truncate_after_first_ext (lc "a.jpg.png") = some (lc "a.jpg") ∧
    truncate_after_first_ext (lc "a.jpg_b") = none ∧
    truncate_after_first_ext (lc "thumbnail.jpgxresdefault.jpg")
      = some (lc "thumbnail.jpgxresdefault.jpg") ∧
    maybe_fix_url (build_catalog [lc "thumbnail.jpg"]) (lc "images/") true
        (lc "thumbnail.jpgxresdefault.jpg")
      = some (lc "images/thumbnail.jpg") := by decide

/-- C3 counterexample: the claim asserts `src` values are always considered
for repair.  With catalog `{photo.jpg}`, the value `photo` is repairable
(`maybe_fix_url` resolves it to `images/photo.jpg`), yet processing
`<img src="photo">` changes nothing: `repl_attr_safe` routes `src` through
the same `/images/`-or-extension eligibility filter as `href`, and `photo`
fails it. -/
theorem c3_src_filtered_counterexample :
    maybe_fix_url (build_catalog [lc "photo.jpg"]) (webRoot true) true (lc "photo")
      = some (lc "images/photo.jpg") ∧
    attrNewVal (build_catalog [lc "photo.jpg"]) true (lc "src") (lc "photo") = none ∧
    processHtmlText (build_catalog [lc "photo.jpg"]) true (lc "<img src=\"photo\">")
      = (lc "<img src=\"photo\">", 0) := by decide

/-- C4 counterexample: the claim asserts a value beginning with `http:` always
appears unmodified in the output.  A `srcset` value is re-assembled from its
split descriptors even when every URL is skipped: with an empty catalog the
value `http://a.jpg  1x` (two spaces) is rewritten to `http://a.jpg 1x` and
counted as a change although `maybe_fix_url` returned nothing. -/
theorem c4_srcset_http_counterexample :
    maybe_fix_url (build_catalog []) (webRoot true) true (lc "http://a.jpg") = none ∧
    processHtmlText (build_catalog []) true (lc "<img srcset=\"http://a.jpg  1x\">")
      = (lc "<img srcset=\"http://a.jpg 1x\">", 1) := by decide

/-- C6 counterexample: the claim asserts the counter is never incremented when
no value is actually repaired.  With an empty catalog nothing is repairable,
yet processing `<img srcset="a.jpg  1x">` normalizes the srcset whitespace,
rewrites the value, and reports one change. -/
theorem c6_count_without_repair_counterexample :
    maybe_fix_url (build_catalog []) (webRoot true) true (lc "a.jpg") = none ∧
    processHtmlText (build_catalog []) true (lc "<img srcset=\"a.jpg  1x\">")
      = (lc "<img srcset=\"a.jpg 1x\">", 1) := by decide

/-- The attribute scanner's change counter counts exactly the visited matches
whose computed replacement passes the Python truthiness test against the
original value. -/
theorem subAttrGo_count (cat : Catalog) (rel : Bool) :
    ∀ (f : Nat) (s : Str),
      (subAttrGo cat rel f s).2
        = (attrMatchList f s).countP
            (fun m => attrChangeTest (attrNewVal cat rel m.1 m.2) m.2) := by
  intro f
  induction f with
  | zero => intro s; simp [subAttrGo, attrMatchList]
  | succ f ih =>
    intro s
    cases s with
    | nil => simp [subAttrGo, attrMatchList]
    | cons c cs =>
      cases hm : matchAttrAt (c :: cs) with
      | none => simpa [subAttrGo, attrMatchList, hm] using ih cs
      | some m =>
        simp only [subAttrGo, attrMatchList, hm, List.countP_cons]
        by_cases ht : attrChangeTest (attrNewVal cat rel m.attrText m.val) m.val
        · simp [ht, ih m.rest]
        · simp [ht, ih m.rest]

/-- The CSS scanner's change counter counts exactly the visited `url(...)`
values whose computed replacement passes the truthiness test. -/
theorem subCssGo_count (cat : Catalog) (rel : Bool) :
    ∀ (f : Nat) (s : Str),
      (subCssGo cat rel f s).2
        = (cssMatchList f s).countP
            (fun v => attrChangeTest (cssNewVal cat rel v) v) := by
  intro f
  induction f with
  | zero => intro s; simp [subCssGo, cssMatchList]
  | succ f ih =>
    intro s
    cases s with
    | nil => simp [subCssGo, cssMatchList]
    | cons c cs =>
      cases hm : matchCssAt (c :: cs) with
      | none => simpa [subCssGo, cssMatchList, hm] using ih cs
      | some vr =>
        simp only [subCssGo, cssMatchList, hm, List.countP_cons]
        by_cases ht : attrChangeTest (cssNewVal cat rel vr.1) vr.1
        · simp [ht, ih vr.2]
        · simp [ht, ih vr.2]

/-- C6 as amended: the change count of `process_html` equals the number of
matched attribute values whose computed replacement passes the Python
truthiness guard `if new_val and new_val != val` — the replacement is
non-empty AND differs from the original (for `srcset` one count per whole
attribute value, even when the difference is only whitespace or comma
normalization; a re-joined value that is empty, as for `srcset=","`, is
falsy and never counted) — plus the number of such CSS `url(...)` values
in the attribute-pass output; not the number of individually repaired
URLs. -/
theorem c6_count_equals_changed_values (cat : Catalog) (rel : Bool) (text : Str) :
    (processHtmlText cat rel text).2
      = (attrMatchList (text.length + 1) text).countP
          (fun m => attrChangeTest (attrNewVal cat rel m.1 m.2) m.2)
        + (cssMatchList ((subAttrGo cat rel (text.length + 1) text).1.length + 1)
            (subAttrGo cat rel (text.length + 1) text).1).countP
          (fun v => attrChangeTest (cssNewVal cat rel v) v) := by
  simp [processHtmlText, subAttrGo_count, subCssGo_count]

/-- The ratio denominator is always positive. -/
theorem ratioDen_pos (k w : Str) : 0 < ratioDen k w := by
  unfold ratioDen
  split
  · omega
  · omega

/-- Python string comparison is irreflexive. -/
theorem pyStrLt_irrefl : ∀ s : Str, pyStrLt s s = false
  | [] => rfl
  | c :: cs => by simp [pyStrLt, pyStrLt_irrefl cs]

/-- Python string comparison is transitive. -/
theorem pyStrLt_trans : ∀ a b c : Str,
    pyStrLt a b = true → pyStrLt b c = true → pyStrLt a c = true := by
  intro a
  induction a with
  | nil =>
    intro b c h1 h2
    cases b with
    | nil => simp [pyStrLt] at h1
    | cons bh bt =>
      cases c with
      | nil => simp [pyStrLt] at h2
      | cons ch ct => simp [pyStrLt]
  | cons ah as' ih =>
    intro b c h1 h2
    cases b with
    | nil => simp [pyStrLt] at h1
    | cons bh bt =>
      cases c with
      | nil => simp [pyStrLt] at h2
      | cons ch ct =>
        simp only [pyStrLt] at h1 h2 ⊢
        by_cases e1 : ah = bh
        · subst e1
          by_cases e2 : ah = ch
          · subst e2
            simp only [if_pos rfl] at h1 h2 ⊢
            exact ih bt ct h1 h2
          · simp only [if_pos rfl] at h1
            simp [e2] at h2 ⊢
            exact h2
        · by_cases e2 : bh = ch
          · subst e2
            simp [e1] at h1 ⊢
            exact h1
          · simp [e1] at h1
            simp [e2] at h2
            have h3 : ah < ch := lt_trans h1 h2
            simp [ne_of_lt h3, h3]

/-- Python string comparison is total. -/
theorem pyStrLt_total : ∀ a b : Str,
    a = b ∨ pyStrLt a b = true ∨ pyStrLt b a = true := by
  intro a
  induction a with
  | nil =>
    intro b
    cases b with
    | nil => exact Or.inl rfl
    | cons bh bt => exact Or.inr (Or.inl (by simp [pyStrLt]))
  | cons ah as' ih =>
    intro b
    cases b with
    | nil => exact Or.inr (Or.inr (by simp [pyStrLt]))
    | cons bh bt =>
      by_cases e : ah = bh
      · subst e
        rcases ih bt with h | h | h
        · exact Or.inl (by rw [h])
        · exact Or.inr (Or.inl (by simp [pyStrLt, h]))
        · exact Or.inr (Or.inr (by simp [pyStrLt, h]))
      · rcases lt_trichotomy ah bh with h | h | h
        · exact Or.inr (Or.inl (by simp [pyStrLt, e, h]))
        · exact absurd h e
        · exact Or.inr (Or.inr (by simp [pyStrLt, Ne.symm e, h]))

/-- `betterCand` unfolded to its propositional content: strictly larger exact
ratio, or equal ratio and lexicographically larger string. -/
theorem betterCand_iff (k b w : Str) : betterCand k b w = true ↔
    (ratioNum b w * ratioDen k w < ratioNum k w * ratioDen b w) ∨
    (ratioNum k w * ratioDen b w = ratioNum b w * ratioDen k w ∧ pyStrLt b k = true) := by
  simp [betterCand, Bool.or_eq_true, Bool.and_eq_true, decide_eq_true_eq]

/-- The candidate ordering is irreflexive. -/
theorem betterCand_irrefl (k w : Str) : betterCand k k w = false := by
  simp [betterCand, pyStrLt_irrefl]

/-- The candidate ordering is transitive. -/
theorem betterCand_trans (a b c w : Str) (h1 : betterCand a b w = true)
    (h2 : betterCand b c w = true) : betterCand a c w = true := by
  rw [betterCand_iff] at h1 h2 ⊢
  have hda := ratioDen_pos a w
  have hdb := ratioDen_pos b w
  have hdc := ratioDen_pos c w
  rcases h1 with h1 | ⟨e1, s1⟩ <;> rcases h2 with h2 | ⟨e2, s2⟩
  · left
    have A : ratioNum b w * ratioDen a w * ratioDen c w
        < ratioNum a w * ratioDen b w * ratioDen c w :=
      mul_lt_mul_of_pos_right h1 hdc
    have B : ratioNum c w * ratioDen b w * ratioDen a w
        < ratioNum b w * ratioDen c w * ratioDen a w :=
      mul_lt_mul_of_pos_right h2 hda
    have C : ratioNum c w * ratioDen a w * ratioDen b w
        < ratioNum a w * ratioDen c w * ratioDen b w := by
      calc ratioNum c w * ratioDen a w * ratioDen b w
          = ratioNum c w * ratioDen b w * ratioDen a w := by ring
        _ < ratioNum b w * ratioDen c w * ratioDen a w := B
        _ = ratioNum b w * ratioDen a w * ratioDen c w := by ring
        _ < ratioNum a w * ratioDen b w * ratioDen c w := A
        _ = ratioNum a w * ratioDen c w * ratioDen b w := by ring
    exact lt_of_mul_lt_mul_right C (Nat.zero_le _)
  · left
    have A : ratioNum b w * ratioDen a w * ratioDen c w
        < ratioNum a w * ratioDen b w * ratioDen c w :=
      mul_lt_mul_of_pos_right h1 hdc
    have C : ratioNum c w * ratioDen a w * ratioDen b w
        < ratioNum a w * ratioDen c w * ratioDen b w := by
      calc ratioNum c w * ratioDen a w * ratioDen b w
          = ratioNum c w * ratioDen b w * ratioDen a w := by ring
        _ = ratioNum b w * ratioDen c w * ratioDen a w := by rw [← e2]
        _ = ratioNum b w * ratioDen a w * ratioDen c w := by ring
        _ < ratioNum a w * ratioDen b w * ratioDen c w := A
        _ = ratioNum a w * ratioDen c w * ratioDen b w := by ring
    exact lt_of_mul_lt_mul_right C (Nat.zero_le _)
  · left
    have B : ratioNum c w * ratioDen b w * ratioDen a w
        < ratioNum b w * ratioDen c w * ratioDen a w :=
      mul_lt_mul_of_pos_right h2 hda
    have C : ratioNum c w * ratioDen a w * ratioDen b w
        < ratioNum a w * ratioDen c w * ratioDen b w := by
      calc ratioNum c w * ratioDen a w * ratioDen b w
          = ratioNum c w * ratioDen b w * ratioDen a w := by ring
        _ < ratioNum b w * ratioDen c w * ratioDen a w := B
        _ = ratioNum b w * ratioDen a w * ratioDen c w := by ring
        _ = ratioNum a w * ratioDen b w * ratioDen c w := by
            rw [show ratioNum b w * ratioDen a w = ratioNum a w * ratioDen b w from e1.symm]
        _ = ratioNum a w * ratioDen c w * ratioDen b w := by ring
    exact lt_of_mul_lt_mul_right C (Nat.zero_le _)
  · right
    constructor
    · have C : ratioNum a w * ratioDen c w * ratioDen b w
          = ratioNum c w * ratioDen a w * ratioDen b w := by
        calc ratioNum a w * ratioDen c w * ratioDen b w
            = ratioNum a w * ratioDen b w * ratioDen c w := by ring
          _ = ratioNum b w * ratioDen a w * ratioDen c w := by rw [e1]
          _ = ratioNum b w * ratioDen c w * ratioDen a w := by ring
          _ = ratioNum c w * ratioDen b w * ratioDen a w := by rw [e2]
          _ = ratioNum c w * ratioDen a w * ratioDen b w := by ring
      exact Nat.eq_of_mul_eq_mul_right hdb C
    · exact pyStrLt_trans c b a s2 s1

/-- If `k` does not beat `b` but beats `c`, then `b` beats `c`. -/
theorem betterCand_resolve (k b c w : Str) (hkb : betterCand k b w = false)
    (hkc : betterCand k c w = true) : betterCand b c w = true := by
  rcases Nat.lt_trichotomy (ratioNum k w * ratioDen b w) (ratioNum b w * ratioDen k w)
    with hlt | heq | hgt
  · have hbk : betterCand b k w = true := by
      rw [betterCand_iff]
      left
      exact hlt
    exact betterCand_trans b k c w hbk hkc
  · rcases pyStrLt_total b k with he | hb | hk2
    · rw [he]
      exact hkc
    · have : betterCand k b w = true := by
        rw [betterCand_iff]
        right
        exact ⟨heq, hb⟩
      rw [hkb] at this
      exact Bool.noConfusion this
    · have hbk : betterCand b k w = true := by
        rw [betterCand_iff]
        right
        exact ⟨heq.symm, hk2⟩
      exact betterCand_trans b k c w hbk hkc
  · have : betterCand k b w = true := by
      rw [betterCand_iff]
      left
      exact hgt
    rw [hkb] at this
    exact Bool.noConfusion this

/-- Invariant of the `get_close_matches` fold: the final candidate qualifies,
comes from the accumulator or the keys, and nothing seen beats it. -/
theorem gcm_fold (w : Str) : ∀ (keys : List Str) (acc : Option Str) (c : Str),
    (∀ b, acc = some b → qualifies b w = true) →
    keys.foldl (gcmStep w) acc = some c →
    qualifies c w = true ∧ (acc = some c ∨ c ∈ keys) ∧
    (∀ b, acc = some b → betterCand b c w = false) ∧
    (∀ k, k ∈ keys → qualifies k w = true → betterCand k c w = false) := by
  intro keys
  induction keys with
  | nil =>
    intro acc c hq hf
    simp only [List.foldl_nil] at hf
    refine ⟨hq c hf, Or.inl hf, fun b hb => ?_, fun k hk => absurd hk (List.not_mem_nil k)⟩
    rw [hf] at hb
    cases hb
    exact betterCand_irrefl c w
  | cons k rest ih =>
    intro acc c hq hf
    simp only [List.foldl_cons] at hf
    by_cases hk : qualifies k w = true
    · cases acc with
      | none =>
        have hstep : gcmStep w none k = some k := by simp [gcmStep, hk]
        rw [hstep] at hf
        obtain ⟨q1, m1, a1, r1⟩ := ih (some k) c
          (fun b hb => by cases hb; exact hk) hf
        refine ⟨q1, ?_, fun b hb => Option.noConfusion hb, fun k' hk' hq' => ?_⟩
        · rcases m1 with m1 | m1
          · cases m1
            exact Or.inr (List.mem_cons_self k rest)
          · exact Or.inr (List.mem_cons_of_mem k m1)
        · rcases List.mem_cons.mp hk' with rfl | hk''
          · exact a1 k' rfl
          · exact r1 k' hk'' hq'
      | some b₀ =>
        by_cases hbt : betterCand k b₀ w = true
        · have hstep : gcmStep w (some b₀) k = some k := by simp [gcmStep, hk, hbt]
          rw [hstep] at hf
          obtain ⟨q1, m1, a1, r1⟩ := ih (some k) c
            (fun b hb => by cases hb; exact hk) hf
          refine ⟨q1, ?_, fun b hb => ?_, fun k' hk' hq' => ?_⟩
          · rcases m1 with m1 | m1
            · cases m1
              exact Or.inr (List.mem_cons_self k rest)
            · exact Or.inr (List.mem_cons_of_mem k m1)
          · cases hb
            rw [Bool.eq_false_iff]
            intro hcon
            have := betterCand_trans k b₀ c w hbt hcon
            rw [a1 k rfl] at this
            exact Bool.noConfusion this
          · rcases List.mem_cons.mp hk' with rfl | hk''
            · exact a1 k' rfl
            · exact r1 k' hk'' hq'
        · have hstep : gcmStep w (some b₀) k = some b₀ := by
            simp [gcmStep, hk, hbt]
          rw [hstep] at hf
          obtain ⟨q1, m1, a1, r1⟩ := ih (some b₀) c hq hf
          refine ⟨q1, ?_, fun b hb => ?_, fun k' hk' hq' => ?_⟩
          · rcases m1 with m1 | m1
            · exact Or.inl m1
            · exact Or.inr (List.mem_cons_of_mem k m1)
          · exact a1 b hb
          · rcases List.mem_cons.mp hk' with rfl | hk''
            · rw [Bool.eq_false_iff]
              intro hcon
              have := betterCand_resolve k' b₀ c w
                (by rw [Bool.eq_false_iff]; exact fun h => hbt h) hcon
              rw [a1 b₀ rfl] at this
              exact Bool.noConfusion this
            · exact r1 k' hk'' hq'
    · have hstep : gcmStep w acc k = acc := by
        simp [gcmStep, hk]
      rw [hstep] at hf
      obtain ⟨q1, m1, a1, r1⟩ := ih acc c hq hf
      refine ⟨q1, ?_, a1, fun k' hk' hq' => ?_⟩
      · rcases m1 with m1 | m1
        · exact Or.inl m1
        · exact Or.inr (List.mem_cons_of_mem k m1)
      · rcases List.mem_cons.mp hk' with rfl | hk''
        · exact absurd hq' (by simpa using hk)
        · exact r1 k' hk'' hq'

/-- A fold over keys none of which qualifies leaves the accumulator
unchanged. -/
theorem gcm_all_unqualified (w : Str) : ∀ (keys : List Str) (acc : Option Str),
    (∀ k ∈ keys, qualifies k w = false) → keys.foldl (gcmStep w) acc = acc := by
  intro keys
  induction keys with
  | nil => intro acc _; rfl
  | cons k rest ih =>
    intro acc h
    have hstep : gcmStep w acc k = acc := by
      simp [gcmStep, h k (List.mem_cons_self k rest)]
    rw [List.foldl_cons, hstep]
    exact ih acc (fun k' hk' => h k' (List.mem_cons_of_mem k hk'))

/-- C5: the fuzzy-match step accepts exactly the single best approximate
match at ratio at least 0.6: a returned candidate is a catalog slug, passes
the 0.6 cutoff (`qualifies` is `ratio ≥ 0.6` over the exact rational), and no
qualifying slug beats it under difflib's ordering; when no slug qualifies,
nothing is returned; repeated `xresdefault` noise is deleted before matching;
and the concrete `minneapolis-skyline.webp` reference against catalog
`{minneapolis_skyline.webp}` resolves to `images/minneapolis_skyline.webp`. -/
theorem c5_fuzzy_best_match (w : Str) (keys : List Str) (c : Str) :
    (getCloseMatches1 w keys = some c →
      c ∈ keys ∧ qualifies c w = true ∧
      ∀ k ∈ keys, qualifies k w = true → betterCand k c w = false) ∧
    ((∀ k ∈ keys, qualifies k w = false) → getCloseMatches1 w keys = none) ∧
    removeXres (slug (pyStem (lc "thumbnail.jpgxresdefaultxresdefault.jpg")))
      = lc "thumbnailjpg" ∧
    maybe_fix_url (build_catalog [lc "minneapolis_skyline.webp"]) (lc "images/") true
        (lc "minneapolis-skyline.webp")
      = some (lc "images/minneapolis_skyline.webp") := by
  refine ⟨fun h => ?_, fun h => ?_, by decide, by decide⟩
  · obtain ⟨q1, m1, _, r1⟩ := gcm_fold w keys none c
      (fun b hb => Option.noConfusion hb) h
    rcases m1 with m1 | m1
    · exact Option.noConfusion m1
    · exact ⟨m1, q1, r1⟩
  · exact gcm_all_unqualified w keys none h

/-- C5 witness: with word `ab` and keys `{a-b, a}` both keys qualify and the
returned `a-b` is unbeaten. -/
theorem c5_fuzzy_best_match_witness :
    (lc "a-b") ∈ [lc "a-b", lc "a"] ∧ qualifies (lc "a-b") (lc "ab") = true ∧
    ∀ k ∈ [lc "a-b", lc "a"], qualifies k (lc "ab") = true →
      betterCand k (lc "a-b") (lc "ab") = false :=
  (c5_fuzzy_best_match (lc "ab") [lc "a-b", lc "a"] (lc "a-b")).1 (by decide)

/-- C3 as amended: `href`, `src` and CSS `url()` values are all subject to
the same eligibility filter — the value must contain `/images/` or end
(case-insensitively) in an allowed extension — while `srcset` values are
always processed through `fix_srcset`. -/
theorem c3_eligibility_amended (cat : Catalog) (rel : Bool) (attr val : Str) :
    (lowerL attr = lc "srcset" →
      attrNewVal cat rel attr val = some (fix_srcset cat (webRoot rel) rel val)) ∧
    (lowerL attr ≠ lc "srcset" → eligibleVal val = false →
      attrNewVal cat rel attr val = none) ∧
    (lowerL attr ≠ lc "srcset" → eligibleVal val = true →
      attrNewVal cat rel attr val = maybe_fix_url cat (webRoot rel) rel val) ∧
    (eligibleVal val = false → cssNewVal cat rel val = none) ∧
    (eligibleVal val = true →
      cssNewVal cat rel val = maybe_fix_url cat (webRoot rel) rel val) := by
  refine ⟨fun h => ?_, fun h he => ?_, fun h he => ?_, fun he => ?_, fun he => ?_⟩
  · simp [attrNewVal, h]
  · simp [attrNewVal, h, he]
  · simp [attrNewVal, h, he]
  · simp [cssNewVal, he]
  · simp [cssNewVal, he]

/-- C3 amended witness at a concrete ineligible `src` value. -/
theorem c3_eligibility_amended_witness :
    attrNewVal (build_catalog [lc "photo.jpg"]) true (lc "src") (lc "photo") = none :=
  (c3_eligibility_amended (build_catalog [lc "photo.jpg"]) true (lc "src")
    (lc "photo")).2.1 (by decide) (by decide)

/-- C4 as amended: `maybe_fix_url` returns nothing for any value beginning
with one of the skip prefixes (for every catalog and web root), and such a
`src`/`href`/CSS `url()` value is never replaced; a `srcset` attribute value
beginning with such a prefix can nevertheless be rewritten, because the
descriptor list is re-assembled even when every URL token is kept
(see the counterexample). -/
theorem c4_skip_prefixes_amended (cat : Catalog) (root : Str) (rel : Bool)
    (attr url : Str) (h : SKIP_PREFIXES.any (fun p => p.isPrefixOf url) = true) :
    maybe_fix_url cat root rel url = none ∧
    (lowerL attr ≠ lc "srcset" → attrNewVal cat rel attr url = none) ∧
    cssNewVal cat rel url = none := by
  have hAll : ∀ r : Str, maybe_fix_url cat r rel url = none := by
    intro r
    rw [maybe_fix_url.eq_def]
    simp [h]
  refine ⟨hAll root, fun hs => ?_, ?_⟩
  · by_cases he : eligibleVal url <;> simp [attrNewVal, hs, he, hAll]
  · by_cases he : eligibleVal url <;> simp [cssNewVal, he, hAll]

/-- C4 amended witness at a concrete `https:` value. -/
theorem c4_skip_prefixes_amended_witness :
    maybe_fix_url (build_catalog [lc "x.jpg"]) (lc "images/") true
        (lc "https://e.com/x.jpg") = none ∧
    (lowerL (lc "href") ≠ lc "srcset" →
      attrNewVal (build_catalog [lc "x.jpg"]) true (lc "href") (lc "https://e.com/x.jpg") = none) ∧
    cssNewVal (build_catalog [lc "x.jpg"]) true (lc "https://e.com/x.jpg") = none :=
  c4_skip_prefixes_amended (build_catalog [lc "x.jpg"]) (lc "images/") true
    (lc "href") (lc "https://e.com/x.jpg") (by decide)

/-- C7: every replacement produced by the resolution algorithm begins with the
canonical images-web-root prefix: `images/` (never a leading `/`) with the
"emit relative paths" flag, `/images/` (always a leading `/`) without it. -/
theorem c7_replacement_web_root (cat : Catalog) (rel : Bool) (url v : Str)
    (h : maybe_fix_url cat (webRoot rel) rel url = some v) :
    (∃ nm, v = webRoot rel ++ nm) ∧
    (rel = true → (['/'].isPrefixOf v) = false) ∧
    (rel = false → (['/'].isPrefixOf v) = true) := by
  obtain ⟨nm, hv⟩ := maybe_fix_url_root_shape cat (webRoot rel) rel url v h
  subst hv
  refine ⟨⟨nm, rfl⟩, fun hrel => ?_, fun hrel => ?_⟩ <;> subst hrel <;> rfl

/-- C7 witness at a concrete resolution. -/
theorem c7_replacement_web_root_witness :
    (∃ nm, lc "images/a.jpg" = webRoot true ++ nm) ∧
    (true = true → (['/'].isPrefixOf (lc "images/a.jpg")) = false) ∧
    (true = false → (['/'].isPrefixOf (lc "images/a.jpg")) = true) :=
  c7_replacement_web_root (build_catalog [lc "a.jpg"]) true (lc "/a.jpg")
    (lc "images/a.jpg") (by decide)

/-- C8: the write-back contract of `process_html`: no filesystem mutation when
the change count is zero or a dry run was requested; otherwise the backup at
the conventional `.bak` path is written only when absent, then the file is
overwritten with the transformed text. -/
theorem c8_rewrite_plan (path orig new : Str) (changed : Nat)
    (write backupExists : Bool) :
    (changed = 0 ∨ write = false →
      rewritePlan path orig new changed write backupExists = []) ∧
    (changed ≠ 0 → write = true → backupExists = false →
      rewritePlan path orig new changed write backupExists
        = [FsOp.writeBackup (path ++ lc ".bak") orig, FsOp.writeFile path new]) ∧
    (changed ≠ 0 → write = true → backupExists = true →
      rewritePlan path orig new changed write backupExists
        = [FsOp.writeFile path new]) := by
  refine ⟨fun h => ?_, fun h1 h2 h3 => ?_, fun h1 h2 h3 => ?_⟩
  · rcases h with h | h <;> simp [rewritePlan, h, bakPath]
  · simp [rewritePlan, h1, h2, h3, bakPath]
  · simp [rewritePlan, h1, h2, h3, bakPath]

/-- C8 witness at a concrete non-dry run with no pre-existing backup. -/
theorem c8_rewrite_plan_witness :
    rewritePlan (lc "a.html") (lc "old") (lc "new") 1 true false
      = [FsOp.writeBackup (lc "a.html" ++ lc ".bak") (lc "old"),
         FsOp.writeFile (lc "a.html") (lc "new")] :=
  (c8_rewrite_plan (lc "a.html") (lc "old") (lc "new") 1 true false).2.1
    (by decide) rfl rfl

end FixImages

namespace EmailTool

/-- C9: `rewrite_mailto` sends every known role alias (lower-cased local
part) to its canonical local part at the single domain `ethicops.org`,
preserving the query string and ignoring the original domain, and returns
unknown matches unchanged; the alias table is exactly
hello/contact/info, support/help, security, press/media, billing/sales,
abuse, postmaster. -/
theorem c9_rewrite_mailto (g0 lp dom query : Str) :
    (∀ nl, local_map.lookup (lowerL lp) = some nl →
      rewrite_mailto g0 lp dom query
        = lc "mailto:" ++ nl ++ '@' :: lc "ethicops.org" ++ query) ∧
    (local_map.lookup (lowerL lp) = none → rewrite_mailto g0 lp dom query = g0) ∧
    (local_map.map Prod.fst
      = [lc "hello", lc "contact", lc "info", lc "support", lc "help",
         lc "security", lc "press", lc "media", lc "billing", lc "sales",
         lc "abuse", lc "postmaster"]) ∧
    local_map.lookup (lc "contact") = some (lc "hello") ∧
    local_map.lookup (lc "info") = some (lc "hello") ∧
    local_map.lookup (lc "help") = some (lc "support") ∧
    local_map.lookup (lc "media") = some (lc "press") ∧
    local_map.lookup (lc "sales") = some (lc "billing") ∧
    local_map.lookup (lc "webmaster") = none := by
  refine ⟨fun nl h => ?_, fun h => ?_, by decide, by decide, by decide,
    by decide, by decide, by decide, by decide⟩ <;>
    simp [rewrite_mailto, h, DOMAIN]

/-- C9 witness: a `Contact@old.example.com` link with a query string is
rewritten to the canonical `hello@ethicops.org`. -/
theorem c9_rewrite_mailto_witness :
    rewrite_mailto (lc "mailto:Contact@old.example.com?subject=Hi") (lc "Contact")
        (lc "old.example.com") (lc "?subject=Hi")
      = lc "mailto:" ++ lc "hello" ++ '@' :: lc "ethicops.org" ++ lc "?subject=Hi" :=
  (c9_rewrite_mailto (lc "mailto:Contact@old.example.com?subject=Hi") (lc "Contact")
    (lc "old.example.com") (lc "?subject=Hi")).1 (lc "hello") (by decide)

/-- Bool-to-Prop bridge for `isPrefixOf`. -/
theorem pfx_of_isPrefixOf {p s : Str} (h : p.isPrefixOf s = true) : p <+: s :=
  List.isPrefixOf_iff_prefix.mp h

/-- Prop-to-Bool bridge for `isPrefixOf`. -/
theorem isPrefixOf_of_pfx {p s : Str} (h : p <+: s) : p.isPrefixOf s = true :=
  List.isPrefixOf_iff_prefix.mpr h

/-- A prefix of `a` is a prefix of `a ++ b`. -/
theorem pfx_append_left {p a : Str} (b : Str) (h : p <+: a) : p <+: a ++ b :=
  h.trans (List.prefix_append a b)

/-- A sufficiently short prefix of `a ++ b` is a prefix of `a`. -/
theorem pfx_of_append_of_le {p a b : Str} (h : p <+: a ++ b)
    (hl : p.length ≤ a.length) : p <+: a :=
  List.prefix_iff_eq_take.mpr
    (by rw [← List.take_append_of_le_length hl]; exact List.prefix_iff_eq_take.mp h)

/-- A nonempty prefix determines the head. -/
theorem pfx_head {p s : Str} (h : p <+: s) (hp : p ≠ []) : p.head? = s.head? := by
  cases p with
  | nil => exact absurd rfl hp
  | cons ph pt =>
    cases s with
    | nil => exact absurd h.length_le (by simp)
    | cons sh st =>
      obtain ⟨he, _⟩ := List.cons_prefix_cons.mp h
      simp [he]

/-- Splitting a spanning occurrence: a pattern overlapping the seam of
`r ++ b` decomposes into a prefix filling `r` and a remainder prefixing `b`. -/
theorem span_decomp {p r b : Str} (h : p <+: r ++ b) (hr : r.length < p.length) :
    r <+: p ∧ p.drop r.length <+: b := by
  have hrp : r <+: p := by
    rcases List.prefix_or_prefix_of_prefix (List.prefix_append r b) h with h' | h'
    · exact h'
    · exact absurd h'.length_le (by omega)
  refine ⟨hrp, ?_⟩
  obtain ⟨t, ht⟩ := h
  obtain ⟨u, hu⟩ := hrp
  have hpu : p = r ++ u := hu.symm
  rw [hpu] at ht
  rw [List.append_assoc] at ht
  have hub : u ++ t = b := List.append_cancel_left ht
  have : p.drop r.length = u := by
    rw [hpu, List.drop_left]
  rw [this]
  exact ⟨t, hub⟩

/-- Counting zero occurrences at a cons position. -/
theorem countOcc_zero_cons {pat : Str} {c : Char} {cs : Str}
    (h : countOcc pat (c :: cs) = 0) :
    pat.isPrefixOf (c :: cs) = false ∧ countOcc pat cs = 0 := by
  rw [countOcc] at h
  by_cases hp : pat.isPrefixOf (c :: cs) = true
  · rw [if_pos hp] at h
    omega
  · rw [Bool.not_eq_true] at hp
    rw [hp] at h
    simp at h
    exact ⟨hp, h⟩

/-- A string with no occurrence of the pattern has none at any offset. -/
theorem not_occ_of_countOcc_zero (pat : Str) (hp : pat ≠ []) :
    ∀ (s : Str) (i : Nat), countOcc pat s = 0 → ¬ pat <+: s.drop i := by
  intro s
  induction s with
  | nil =>
    intro i _ hc
    rw [List.drop_nil] at hc
    exact hp (List.prefix_nil.mp hc)
  | cons c cs ih =>
    intro i h hc
    obtain ⟨h1, h2⟩ := countOcc_zero_cons h
    cases i with
    | zero =>
      rw [List.drop_zero] at hc
      rw [isPrefixOf_of_pfx hc] at h1
      exact Bool.noConfusion h1
    | succ j => exact ih j h2 hc

/-- Occurrence counts of the parts bound the count of the whole. -/
theorem countOcc_append_le (pat : Str) :
    ∀ a b : Str, countOcc pat a + countOcc pat b ≤ countOcc pat (a ++ b) := by
  intro a
  induction a with
  | nil => intro b; simp [countOcc]
  | cons c cs ih =>
    intro b
    rw [List.cons_append, countOcc, countOcc]
    have hmono : (if pat.isPrefixOf (c :: cs) then 1 else 0)
        ≤ (if pat.isPrefixOf (c :: (cs ++ b)) then 1 else 0) := by
      by_cases hp : pat.isPrefixOf (c :: cs) = true
      · rw [if_pos hp,
          if_pos (show pat.isPrefixOf (c :: (cs ++ b)) = true from
            isPrefixOf_of_pfx (pfx_append_left b (pfx_of_isPrefixOf hp)))]
      · rw [Bool.not_eq_true] at hp
        rw [hp]
        simp
    have := ih b
    omega

/-- Zero occurrences in the whole give zero in a take/drop split. -/
theorem countOcc_zero_split (pat : Str) (L : Str) (n : Nat)
    (h : countOcc pat L = 0) :
    countOcc pat (L.take n) = 0 ∧ countOcc pat (L.drop n) = 0 := by
  have := countOcc_append_le pat (L.take n) (L.drop n)
  rw [List.take_append_drop] at this
  omega

/-- Occurrence counting distributes over an append when no occurrence can
span the seam. -/
theorem countOcc_append (pat : Str) (_hp : pat ≠ []) :
    ∀ (a b : Str),
      (∀ r : Str, r <:+ a → r ≠ [] → r.length < pat.length → ¬ pat <+: r ++ b) →
      countOcc pat (a ++ b) = countOcc pat a + countOcc pat b := by
  intro a
  induction a with
  | nil => intro b _; simp [countOcc]
  | cons c cs ih =>
    intro b hns
    rw [List.cons_append, countOcc, countOcc]
    have hrec := ih b (fun r hr => hns r (hr.trans (List.suffix_cons c cs)))
    have hind : (if pat.isPrefixOf (c :: cs ++ b) then 1 else 0)
        = (if pat.isPrefixOf (c :: cs) then 1 else 0) := by
      by_cases hl : pat.length ≤ (c :: cs).length
      · by_cases hp2 : pat <+: (c :: cs)
        · rw [if_pos (isPrefixOf_of_pfx hp2),
            if_pos (isPrefixOf_of_pfx (pfx_append_left b hp2))]
        · have : ¬ pat <+: (c :: cs) ++ b := fun hcon => hp2 (pfx_of_append_of_le hcon hl)
          rw [if_neg (fun hcon => this (pfx_of_isPrefixOf hcon)),
            if_neg (fun hcon => hp2 (pfx_of_isPrefixOf hcon))]
      · push_neg at hl
        have h1 : ¬ pat <+: (c :: cs) ++ b :=
          hns (c :: cs) (List.suffix_refl _) (by simp) hl
        have h2 : ¬ pat <+: (c :: cs) := fun hcon => absurd hcon.length_le (by omega)
        rw [if_neg (fun hcon => h1 (pfx_of_isPrefixOf hcon)),
          if_neg (fun hcon => h2 (pfx_of_isPrefixOf hcon))]
    rw [List.cons_append] at hind
    omega

/-- Seam freedom when the right side starts with a character the pattern
never has at a positive offset. -/
theorem countOcc_append_headBlocked (pat : Str) (hp : pat ≠ []) (a b : Str)
    (x : Char) (hbx : b.head? = some x)
    (hx : ∀ ℓ, ℓ < pat.length → 0 < ℓ → (pat.drop ℓ).head? ≠ some x) :
    countOcc pat (a ++ b) = countOcc pat a + countOcc pat b := by
  refine countOcc_append pat hp a b (fun r _ hne hlen hcon => ?_)
  obtain ⟨_, hdrop⟩ := span_decomp hcon hlen
  have hne2 : pat.drop r.length ≠ [] := by
    have : (pat.drop r.length).length = pat.length - r.length := List.length_drop _ _
    intro hcon2
    rw [hcon2] at this
    simp at this
    omega
  have := pfx_head hdrop hne2
  rw [hbx] at this
  exact hx r.length hlen (List.length_pos.mpr hne) this

/-- Seam freedom when no short pattern prefix is a suffix of the left side. -/
theorem countOcc_append_tailBlocked (pat : Str) (hp : pat ≠ []) (a b : Str)
    (ht : ∀ ℓ, ℓ < pat.length → 0 < ℓ → ¬ (pat.take ℓ) <:+ a) :
    countOcc pat (a ++ b) = countOcc pat a + countOcc pat b := by
  refine countOcc_append pat hp a b (fun r hsuf hne hlen hcon => ?_)
  obtain ⟨hrp, _⟩ := span_decomp hcon hlen
  have : r = pat.take r.length := List.prefix_iff_eq_take.mp hrp
  exact ht r.length hlen (List.length_pos.mpr hne) (this ▸ hsuf)

/-- `findOcc` fails exactly on occurrence-free strings. -/
theorem findOcc_none_iff (pat : Str) :
    ∀ s : Str, findOcc pat s = none ↔ countOcc pat s = 0 := by
  intro s
  induction s with
  | nil => simp [findOcc, countOcc]
  | cons c cs ih =>
    rw [findOcc, countOcc]
    by_cases hp : pat.isPrefixOf (c :: cs) = true
    · simp [hp]
    · rw [Bool.not_eq_true] at hp
      simp [hp, ih]

/-- An occurrence inside the left part is found at the same index in the
appended string. -/
theorem findOcc_append_left (pat : Str) (_hp : pat ≠ []) :
    ∀ (a : Str) (j : Nat) (b : Str),
      findOcc pat a = some j → j + pat.length ≤ a.length →
      findOcc pat (a ++ b) = some j := by
  intro a
  induction a with
  | nil =>
    intro j b hf _
    rw [findOcc] at hf
    exact Option.noConfusion hf
  | cons c cs ih =>
    intro j b hf hlen
    rw [findOcc] at hf
    by_cases hpfx : pat.isPrefixOf (c :: cs) = true
    · rw [if_pos hpfx] at hf
      cases hf
      rw [List.cons_append, findOcc,
        if_pos (show pat.isPrefixOf (c :: (cs ++ b)) = true from
          isPrefixOf_of_pfx (pfx_append_left b (pfx_of_isPrefixOf hpfx)))]
    · rw [if_neg hpfx] at hf
      cases hj : findOcc pat cs with
      | none => rw [hj] at hf; exact Option.noConfusion hf
      | some j' =>
        rw [hj] at hf
        have hjj : j = j' + 1 := (Option.some.inj hf).symm
        subst hjj
        have hlen' : pat.length ≤ cs.length + 1 := by
          have := List.length_cons c cs
          omega
        have hnot : ¬ pat.isPrefixOf (c :: (cs ++ b)) = true := by
          intro hcon
          have hc := pfx_of_isPrefixOf hcon


          have hle : pat.length ≤ (c :: cs).length := by
            simp only [List.length_cons]
            simp only [List.length_cons] at hlen
            omega
          exact hpfx (isPrefixOf_of_pfx
            (pfx_of_append_of_le (show pat <+: (c :: cs) ++ b from hc) hle))
        rw [List.cons_append, findOcc, if_neg hnot,
          ih j' b hj (by simp only [List.length_cons] at hlen; omega)]
        rfl

/-- Lower-casing distributes over append. -/
theorem lowerL_append (a b : Str) : lowerL (a ++ b) = lowerL a ++ lowerL b :=
  List.map_append pyLower a b

/-- Lower-casing commutes with take. -/
theorem lowerL_take (a : Str) (n : Nat) : lowerL (a.take n) = (lowerL a).take n :=
  List.map_take pyLower a n

/-- Lower-casing commutes with drop. -/
theorem lowerL_drop (a : Str) (n : Nat) : lowerL (a.drop n) = (lowerL a).drop n :=
  List.map_drop pyLower a n

/-- The length of a lower-cased string. -/
theorem lowerL_length (a : Str) : (lowerL a).length = a.length :=
  List.length_map a pyLower

/-- A pattern-free text is left unchanged by the block-removal scanner, for
any fuel. -/
theorem removeBlocksGo_id (mark : Str) :
    ∀ (f : Nat) (s : Str), countOcc mark (lowerL s) = 0 →
      removeBlocksGo mark f s = s := by
  intro f
  induction f with
  | zero => intro s _; rfl
  | succ f ih =>
    intro s hc
    cases s with
    | nil => rfl
    | cons c cs =>
      have hc' : countOcc mark (pyLower c :: lowerL cs) = 0 := by
        simpa [lowerL] using hc
      obtain ⟨h1, h2⟩ := countOcc_zero_cons hc'
      rw [removeBlocksGo]
      rw [show lowerL (c :: cs) = pyLower c :: lowerL cs from rfl, h1]
      simp [ih cs (by simpa [lowerL] using h2)]

/-- The removal scanner copies a region in which no marker match can start,
then continues on the remainder with the corresponding fuel. -/
theorem removeBlocksGo_append (mark : Str) :
    ∀ (a : Str) (f : Nat) (b : Str),
      (∀ i, i < a.length → mark.isPrefixOf ((lowerL (a ++ b)).drop i) = false) →
      a.length ≤ f →
      removeBlocksGo mark f (a ++ b) = a ++ removeBlocksGo mark (f - a.length) b := by
  intro a
  induction a with
  | nil => intro f b _ _; simp
  | cons c a' ih =>
    intro f b hno hf
    cases f with
    | zero => simp at hf
    | succ f' =>
      have h0 : mark.isPrefixOf (lowerL (c :: (a' ++ b))) = false := by
        have := hno 0 (by simp)
        simpa using this
      rw [List.cons_append, removeBlocksGo, h0]
      simp only [Bool.false_eq_true, if_neg (Bool.noConfusion : ¬ (false = true))]
      rw [ih f' b (fun i hi => by
          have := hno (i + 1) (by simp only [List.length_cons]; omega)
          simpa [lowerL] using this)
        (by simp only [List.length_cons] at hf; omega)]
      simp only [List.cons_append, List.length_cons]
      have heq : f' + 1 - (a'.length + 1) = f' - a'.length := by omega
      rw [heq]
      simp

/-- No marker match can start inside `a` when `a` is marker-free and the
pattern never carries the first character of `b` at a positive offset. -/
theorem scan_no_match (mark : Str) (hm : mark ≠ []) (a b : Str) (x : Char)
    (hca : countOcc mark (lowerL a) = 0)
    (hbx : (lowerL b).head? = some x)
    (hx : ∀ ℓ, ℓ < mark.length → 0 < ℓ → (mark.drop ℓ).head? ≠ some x) :
    ∀ i, i < a.length → mark.isPrefixOf ((lowerL (a ++ b)).drop i) = false := by
  intro i hi
  rw [Bool.eq_false_iff]
  intro hcon
  have hc := pfx_of_isPrefixOf hcon
  rw [lowerL_append] at hc
  have hilen : i ≤ (lowerL a).length := by
    rw [lowerL_length]
    omega
  rw [List.drop_append_of_le_length hilen] at hc
  by_cases hfit : mark.length ≤ ((lowerL a).drop i).length
  · exact not_occ_of_countOcc_zero mark hm (lowerL a) i hca (pfx_of_append_of_le hc hfit)
  · push_neg at hfit
    have hne : (lowerL a).drop i ≠ [] := by
      intro hcon2
      have := List.length_drop i (lowerL a)
      rw [hcon2, lowerL_length] at this
      simp only [List.length_nil] at this
      omega
    obtain ⟨_, hdrop⟩ := span_decomp hc hfit
    have hne2 : mark.drop ((lowerL a).drop i).length ≠ [] := by
      intro hcon2
      have := List.length_drop ((lowerL a).drop i).length mark
      rw [hcon2] at this
      simp only [List.length_nil] at this
      omega
    have := pfx_head hdrop hne2
    rw [hbx] at this
    exact hx ((lowerL a).drop i).length hfit (List.length_pos.mpr hne) this

/-- A pattern longer than the text never occurs in it. -/
theorem countOcc_zero_of_short (pat : Str) :
    ∀ s : Str, s.length < pat.length → countOcc pat s = 0 := by
  intro s
  induction s with
  | nil => intro _; rfl
  | cons c cs ih =>
    intro h
    rw [countOcc]
    have hind : pat.isPrefixOf (c :: cs) = false := by
      rw [Bool.eq_false_iff]
      intro hcon
      exact absurd (pfx_of_isPrefixOf hcon).length_le (by omega)
    rw [hind]
    simp only [List.length_cons] at h
    simp [ih (by omega)]

/-- A head of the left part is the head of the append. -/
theorem head_append {l : Str} (r : Str) {x : Char} (h : l.head? = some x) :
    (l ++ r).head? = some x := by
  cases l with
  | nil => exact Option.noConfusion h
  | cons c t => simpa using h

/-- One consuming step of the removal scanner: when the text begins with a
marker match whose first closing tag ends exactly at the end of `blk`, the
scanner drops `blk`, absorbs following whitespace, and continues. -/
theorem removeBlocksGo_consume (mark : Str) (f : Nat) (blk tail : Str) (J : Nat)
    (hpfx : mark.isPrefixOf (lowerL (blk ++ tail)) = true)
    (hfind : findOcc divClose (lowerL ((blk ++ tail).drop mark.length)) = some J)
    (hlen : mark.length + J + divClose.length = blk.length) :
    removeBlocksGo mark (f + 1) (blk ++ tail)
      = removeBlocksGo mark f (tail.dropWhile isPySpace) := by
  cases blk with
  | nil =>
    have h6 : divClose.length = 6 := rfl
    simp only [List.length_nil] at hlen
    omega
  | cons c bt =>
    rw [List.cons_append] at hpfx hfind
    rw [List.cons_append, removeBlocksGo]
    split
    · split
      · rename_i j hj
        rw [hj] at hfind
        have hjJ : j = J := Option.some.inj hfind
        subst hjJ
        have hdrop : (c :: (bt ++ tail)).drop (mark.length + j + divClose.length) = tail := by
          rw [hlen, ← List.cons_append, List.drop_left]
        rw [hdrop]
      · rename_i hj
        rw [hj] at hfind
        exact Option.noConfusion hfind
    · rename_i hcond
      exact absurd hpfx hcond

/-- The contact marker is nonempty. -/
theorem contactsMarker_ne_nil : contactsMarker ≠ [] := by decide

/-- The legacy marker is nonempty. -/
theorem autoMarker_ne_nil : autoMarker ≠ [] := by decide

/-- The contact marker has `<` only at offset zero. -/
theorem contactsMarker_noLt :
    ∀ ℓ, ℓ < contactsMarker.length → 0 < ℓ →
      (contactsMarker.drop ℓ).head? ≠ some '<' := by decide

/-- The contact marker contains no newline. -/
theorem contactsMarker_noNl :
    ∀ ℓ, ℓ < contactsMarker.length → 0 < ℓ →
      (contactsMarker.drop ℓ).head? ≠ some '\n' := by decide

/-- The legacy marker has `<` only at offset zero. -/
theorem autoMarker_noLt :
    ∀ ℓ, ℓ < autoMarker.length → 0 < ℓ →
      (autoMarker.drop ℓ).head? ≠ some '<' := by decide

/-- The legacy marker contains no newline. -/
theorem autoMarker_noNl :
    ∀ ℓ, ℓ < autoMarker.length → 0 < ℓ →
      (autoMarker.drop ℓ).head? ≠ some '\n' := by decide

/-- `</footer>` contains no newline. -/
theorem footerClose_noNl :
    ∀ ℓ, ℓ < footerClose.length → 0 < ℓ →
      (footerClose.drop ℓ).head? ≠ some '\n' := by decide

/-- `</body>` contains no newline. -/
theorem bodyClose_noNl :
    ∀ ℓ, ℓ < bodyClose.length → 0 < ℓ →
      (bodyClose.drop ℓ).head? ≠ some '\n' := by decide

/-- No short prefix of the contact marker ends the footer block. -/
theorem contactsMarker_tail_block :
    ∀ ℓ, ℓ < contactsMarker.length → 0 < ℓ →
      ¬ (contactsMarker.take ℓ) <:+ lowerL footer_block := by decide

/-- No short prefix of the legacy marker ends the footer block. -/
theorem autoMarker_tail_block :
    ∀ ℓ, ℓ < autoMarker.length → 0 < ℓ →
      ¬ (autoMarker.take ℓ) <:+ lowerL footer_block := by decide

/-- No short prefix of the contact marker ends `\n</footer>`. -/
theorem contactsMarker_tail_nlFooter :
    ∀ ℓ, ℓ < contactsMarker.length → 0 < ℓ →
      ¬ (contactsMarker.take ℓ) <:+ ('\n' :: footerClose) := by decide

/-- No short prefix of the legacy marker ends `\n</footer>`. -/
theorem autoMarker_tail_nlFooter :
    ∀ ℓ, ℓ < autoMarker.length → 0 < ℓ →
      ¬ (autoMarker.take ℓ) <:+ ('\n' :: footerClose) := by decide

/-- No short prefix of the contact marker ends `\n</body>`. -/
theorem contactsMarker_tail_nlBody :
    ∀ ℓ, ℓ < contactsMarker.length → 0 < ℓ →
      ¬ (contactsMarker.take ℓ) <:+ ('\n' :: bodyClose) := by decide

/-- No short prefix of the legacy marker ends `\n</body>`. -/
theorem autoMarker_tail_nlBody :
    ∀ ℓ, ℓ < autoMarker.length → 0 < ℓ →
      ¬ (autoMarker.take ℓ) <:+ ('\n' :: bodyClose) := by decide

/-- No short prefix of the contact marker ends `</footer>`. -/
theorem contactsMarker_tail_footer :
    ∀ ℓ, ℓ < contactsMarker.length → 0 < ℓ →
      ¬ (contactsMarker.take ℓ) <:+ footerClose := by decide

/-- No short prefix of the contact marker ends `</body>`. -/
theorem contactsMarker_tail_body :
    ∀ ℓ, ℓ < contactsMarker.length → 0 < ℓ →
      ¬ (contactsMarker.take ℓ) <:+ bodyClose := by decide

/-- The footer block contains the contact marker exactly once. -/
theorem count_marker_block : countOcc contactsMarker (lowerL footer_block) = 1 := by
  decide

/-- The footer block does not contain the legacy marker. -/
theorem count_auto_block : countOcc autoMarker (lowerL footer_block) = 0 := by
  decide

/-- The footer block (lower-cased) starts with `<`. -/
theorem block_head : (lowerL footer_block).head? = some '<' := by decide

/-- `</footer>` (which is its own lower-casing) starts with `<`. -/
theorem footerClose_head : (footerClose : Str).head? = some '<' := by decide

/-- The lower-casing of the already lower-case `\n</footer>` is itself. -/
theorem lowerL_nlFooter : lowerL ('\n' :: footerClose) = '\n' :: footerClose := by
  decide

/-- The lower-casing of the already lower-case `\n</body>` is itself. -/
theorem lowerL_nlBody : lowerL ('\n' :: bodyClose) = '\n' :: bodyClose := by decide

/-- The lower-casing of `"\n"` is itself. -/
theorem lowerL_nl : lowerL ['\n'] = ['\n'] := by decide

/-- The contact marker opens the (lower-cased) footer block. -/
theorem marker_prefix_block : contactsMarker <+: lowerL footer_block := by decide

/-- The first `</div>` after the marker inside the footer block sits at
offset 666, closing the block at its final character. -/
theorem block_divClose_find :
    findOcc divClose (lowerL (footer_block.drop contactsMarker.length))
      = some 666 := by decide

/-- Length bookkeeping for the footer block. -/
theorem block_length : footer_block.length = 699 := by decide

/-- Counting across a four-part split with all three seams blocked. -/
theorem countOcc_quad (pat : Str) (hp : pat ≠ []) (A B C D : Str) (x : Char)
    (hBx : B.head? = some x)
    (hx : ∀ ℓ, ℓ < pat.length → 0 < ℓ → (pat.drop ℓ).head? ≠ some x)
    (htB : ∀ ℓ, ℓ < pat.length → 0 < ℓ → ¬ (pat.take ℓ) <:+ B)
    (htC : ∀ ℓ, ℓ < pat.length → 0 < ℓ → ¬ (pat.take ℓ) <:+ C) :
    countOcc pat (A ++ (B ++ (C ++ D)))
      = countOcc pat A + (countOcc pat B + (countOcc pat C + countOcc pat D)) := by
  rw [countOcc_append_headBlocked pat hp A (B ++ (C ++ D)) x (head_append _ hBx) hx,
    countOcc_append_tailBlocked pat hp B (C ++ D) htB,
    countOcc_append_tailBlocked pat hp C D htC]

/-- A cons headed by a character different from the pattern's head
contributes no occurrence at offset zero. -/
theorem countOcc_cons_nohead (pat : Str) (c d : Char) (z : Str)
    (hd : pat.head? = some d) (hne : d ≠ c) :
    countOcc pat (c :: z) = countOcc pat z := by
  rw [countOcc]
  have hfalse : pat.isPrefixOf (c :: z) = false := by
    rw [Bool.eq_false_iff]
    intro hcon
    have hpfx := pfx_of_isPrefixOf hcon
    have hne2 : pat ≠ [] := by
      intro hcon2
      rw [hcon2] at hd
      exact Option.noConfusion hd
    have := pfx_head hpfx hne2
    rw [hd] at this
    exact hne (Option.some.inj this)
  rw [hfalse]
  simp

/-- A list headed by a non-space character survives `dropWhile isPySpace`. -/
theorem dropWhile_nonspace {l : Str} {c : Char} (h : l.head? = some c)
    (hc : isPySpace c = false) : l.dropWhile isPySpace = l := by
  cases l with
  | nil => rfl
  | cons a t =>
    have : a = c := Option.some.inj (by simpa using h)
    subst this
    rw [List.dropWhile_cons, hc]
    simp

/-- The removal scanner maps the empty text to itself for any fuel. -/
theorem removeBlocksGo_nil (mark : Str) : ∀ f : Nat, removeBlocksGo mark f [] = [] := by
  intro f
  cases f <;> rfl

/-- `</footer>` is already lower-case. -/
theorem lowerL_footerClose : lowerL footerClose = footerClose := by decide

/-- `</body>` is already lower-case. -/
theorem lowerL_bodyClose : lowerL bodyClose = bodyClose := by decide

/-- `</body>` starts with `<`. -/
theorem bodyClose_head : (bodyClose : Str).head? = some '<' := by decide

/-- The closing-tag pattern is nonempty. -/
theorem divClose_ne_nil : divClose ≠ [] := by decide

/-- The contact marker starts with `<`. -/
theorem contactsMarker_head : (contactsMarker : Str).head? = some '<' := by decide

/-- The legacy marker starts with `<`. -/
theorem autoMarker_head : (autoMarker : Str).head? = some '<' := by decide

/-- Length of the lower-cased block remainder searched for `</div>`. -/
theorem block_drop_length :
    (lowerL (footer_block.drop contactsMarker.length)).length = 672 := by decide

/-- The block's closing tag fits inside the block remainder. -/
theorem block_divClose_fits :
    666 + divClose.length ≤ (lowerL (footer_block.drop contactsMarker.length)).length := by
  decide

/-- Marker-length bookkeeping for the consuming step. -/
theorem block_consume_length :
    contactsMarker.length + 666 + divClose.length = footer_block.length := by decide

/-- The contact marker is a prefix of the lower-cased block followed by
anything. -/
theorem marker_prefix_block_append (tail : Str) :
    contactsMarker.isPrefixOf (lowerL (footer_block ++ tail)) = true := by
  rw [lowerL_append]
  exact isPrefixOf_of_pfx (pfx_append_left _ marker_prefix_block)

/-- The first `</div>` in the block remainder followed by anything is the
block's own closing tag. -/
theorem block_divClose_find_append (tail : Str) :
    findOcc divClose (lowerL ((footer_block ++ tail).drop contactsMarker.length))
      = some 666 := by
  have h27 : contactsMarker.length ≤ footer_block.length := by decide
  rw [List.drop_append_of_le_length h27, lowerL_append]
  exact findOcc_append_left divClose divClose_ne_nil _ 666 _
    block_divClose_find block_divClose_fits

/-- Inserting the block into a marker-free text yields exactly one marker
occurrence, whichever insertion branch fires. -/
theorem insertBlock_count (t : Str) (h : countMarker t = 0) :
    countMarker (insertBlock t) = 1 := by
  rw [countMarker] at h
  rw [insertBlock]
  cases hfo : findOcc footerClose (lowerL t) with
  | some i =>
    dsimp only
    rw [countMarker, List.append_assoc, List.append_assoc, lowerL_append, lowerL_append,
      lowerL_append, lowerL_nlFooter, lowerL_take, lowerL_drop]
    rw [countOcc_quad contactsMarker contactsMarker_ne_nil _ _ _ _ '<' block_head
      contactsMarker_noLt contactsMarker_tail_block contactsMarker_tail_nlFooter]
    rw [(countOcc_zero_split contactsMarker (lowerL t) i h).1,
      (countOcc_zero_split contactsMarker (lowerL t) (i + footerClose.length) h).2,
      count_marker_block,
      countOcc_zero_of_short contactsMarker ('\n' :: footerClose) (by decide)]
  | none =>
    cases hbo : findOcc bodyClose (lowerL t) with
    | some i =>
      dsimp only
      rw [countMarker, List.append_assoc, List.append_assoc, lowerL_append, lowerL_append,
        lowerL_append, lowerL_nlBody, lowerL_take, lowerL_drop]
      rw [countOcc_quad contactsMarker contactsMarker_ne_nil _ _ _ _ '<' block_head
        contactsMarker_noLt contactsMarker_tail_block contactsMarker_tail_nlBody]
      rw [(countOcc_zero_split contactsMarker (lowerL t) i h).1,
        (countOcc_zero_split contactsMarker (lowerL t) (i + bodyClose.length) h).2,
        count_marker_block,
        countOcc_zero_of_short contactsMarker ('\n' :: bodyClose) (by decide)]
    | none =>
      dsimp only
      rw [countMarker, List.append_assoc, lowerL_append]
      rw [show ('\n' :: footer_block) ++ ['\n'] = '\n' :: (footer_block ++ ['\n'])
        from rfl]
      rw [show lowerL ('\n' :: (footer_block ++ ['\n']))
          = '\n' :: (lowerL footer_block ++ ['\n']) from by
        rw [show lowerL ('\n' :: (footer_block ++ ['\n']))
            = '\n' :: lowerL (footer_block ++ ['\n']) from rfl, lowerL_append, lowerL_nl]]
      rw [countOcc_append_headBlocked contactsMarker contactsMarker_ne_nil (lowerL t)
        ('\n' :: (lowerL footer_block ++ ['\n'])) '\n' rfl contactsMarker_noNl]
      rw [countOcc_cons_nohead contactsMarker '\n' '<' _ contactsMarker_head (by decide)]
      rw [countOcc_append_tailBlocked contactsMarker contactsMarker_ne_nil _ _
        contactsMarker_tail_block]
      rw [h, count_marker_block,
        countOcc_zero_of_short contactsMarker ['\n'] (by decide)]

/-- Second run, `</footer>` branch: removing the inserted block restores a
marker-free text, so re-insertion again yields exactly one marker. -/
theorem run2_footer (t : Str) (i : Nat) (hM : countMarker t = 0)
    (hA : countAuto t = 0) (hfo : findOcc footerClose (lowerL t) = some i) :
    countMarker (insert_footer (insertBlock t)) = 1 := by
  have hM' : countOcc contactsMarker (lowerL t) = 0 := hM
  have hA' : countOcc autoMarker (lowerL t) = 0 := hA
  have hy : insertBlock t
      = t.take i ++ footer_block ++ '\n' :: footerClose
          ++ t.drop (i + footerClose.length) := by
    simp only [insertBlock, hfo]
  have hAy : countOcc autoMarker (lowerL (insertBlock t)) = 0 := by
    rw [hy, List.append_assoc, List.append_assoc, lowerL_append, lowerL_append,
      lowerL_append, lowerL_nlFooter, lowerL_take, lowerL_drop]
    rw [countOcc_quad autoMarker autoMarker_ne_nil _ _ _ _ '<' block_head
      autoMarker_noLt autoMarker_tail_block autoMarker_tail_nlFooter]
    rw [(countOcc_zero_split autoMarker (lowerL t) i hA').1,
      (countOcc_zero_split autoMarker (lowerL t) (i + footerClose.length) hA').2,
      count_auto_block,
      countOcc_zero_of_short autoMarker ('\n' :: footerClose) (by decide)]
  have hauto : removeBlocks autoMarker (insertBlock t) = insertBlock t :=
    removeBlocksGo_id autoMarker _ _ hAy
  have hcountA : countOcc contactsMarker (lowerL (t.take i)) = 0 := by
    rw [lowerL_take]
    exact (countOcc_zero_split contactsMarker (lowerL t) i hM').1
  have hcountD : countOcc contactsMarker
      (lowerL (t.drop (i + footerClose.length))) = 0 := by
    rw [lowerL_drop]
    exact (countOcc_zero_split contactsMarker (lowerL t) (i + footerClose.length) hM').2
  have hfcD : countOcc contactsMarker
      (lowerL (footerClose ++ t.drop (i + footerClose.length))) = 0 := by
    rw [lowerL_append, lowerL_footerClose,
      countOcc_append_tailBlocked contactsMarker contactsMarker_ne_nil _ _
        contactsMarker_tail_footer,
      countOcc_zero_of_short contactsMarker footerClose (by decide), hcountD]
  have hstep1 : removeBlocks contactsMarker (insertBlock t)
      = t.take i ++ (footerClose ++ t.drop (i + footerClose.length)) := by
    rw [hy, List.append_assoc, List.append_assoc]
    show removeBlocksGo contactsMarker _ _ = _
    rw [removeBlocksGo_append contactsMarker (t.take i) _
      (footer_block ++ ('\n' :: footerClose ++ t.drop (i + footerClose.length)))
      (scan_no_match contactsMarker contactsMarker_ne_nil _ _ '<' hcountA
        (by rw [lowerL_append]; exact head_append _ block_head)
        contactsMarker_noLt)
      (by simp only [List.length_append]; omega)]
    have hf2 : (t.take i ++ (footer_block
          ++ ('\n' :: footerClose ++ t.drop (i + footerClose.length)))).length + 1
          - (t.take i).length
        = (footer_block ++ ('\n' :: footerClose
            ++ t.drop (i + footerClose.length))).length + 1 := by
      simp only [List.length_append]
      omega
    rw [hf2]
    rw [removeBlocksGo_consume contactsMarker _ footer_block
      ('\n' :: footerClose ++ t.drop (i + footerClose.length)) 666
      (marker_prefix_block_append _) (block_divClose_find_append _)
      block_consume_length]
    have hdw : (('\n' :: footerClose ++ t.drop (i + footerClose.length)) :
        Str).dropWhile isPySpace
        = footerClose ++ t.drop (i + footerClose.length) := by
      rw [show (('\n' :: footerClose ++ t.drop (i + footerClose.length)) : Str)
          = '\n' :: (footerClose ++ t.drop (i + footerClose.length)) from rfl]
      rw [List.dropWhile_cons]
      rw [if_pos (by decide : isPySpace '\n' = true)]
      exact dropWhile_nonspace (head_append _ footerClose_head) (by decide)
    rw [hdw, removeBlocksGo_id contactsMarker _ _ hfcD]
  have hX : countMarker (t.take i
      ++ (footerClose ++ t.drop (i + footerClose.length))) = 0 := by
    rw [countMarker, lowerL_append]
    rw [countOcc_append_headBlocked contactsMarker contactsMarker_ne_nil _ _ '<'
      (by rw [lowerL_append, lowerL_footerClose]; exact head_append _ footerClose_head)
      contactsMarker_noLt]
    rw [hcountA, hfcD]
  show countMarker (insertBlock (removeBlocks contactsMarker
    (removeBlocks autoMarker (insertBlock t)))) = 1
  rw [hauto, hstep1]
  exact insertBlock_count _ hX

/-- Second run, `</body>` branch. -/
theorem run2_body (t : Str) (i : Nat) (hM : countMarker t = 0)
    (hA : countAuto t = 0) (hfo : findOcc footerClose (lowerL t) = none)
    (hbo : findOcc bodyClose (lowerL t) = some i) :
    countMarker (insert_footer (insertBlock t)) = 1 := by
  have hM' : countOcc contactsMarker (lowerL t) = 0 := hM
  have hA' : countOcc autoMarker (lowerL t) = 0 := hA
  have hy : insertBlock t
      = t.take i ++ footer_block ++ '\n' :: bodyClose
          ++ t.drop (i + bodyClose.length) := by
    simp only [insertBlock, hfo, hbo]
  have hAy : countOcc autoMarker (lowerL (insertBlock t)) = 0 := by
    rw [hy, List.append_assoc, List.append_assoc, lowerL_append, lowerL_append,
      lowerL_append, lowerL_nlBody, lowerL_take, lowerL_drop]
    rw [countOcc_quad autoMarker autoMarker_ne_nil _ _ _ _ '<' block_head
      autoMarker_noLt autoMarker_tail_block autoMarker_tail_nlBody]
    rw [(countOcc_zero_split autoMarker (lowerL t) i hA').1,
      (countOcc_zero_split autoMarker (lowerL t) (i + bodyClose.length) hA').2,
      count_auto_block,
      countOcc_zero_of_short autoMarker ('\n' :: bodyClose) (by decide)]
  have hauto : removeBlocks autoMarker (insertBlock t) = insertBlock t :=
    removeBlocksGo_id autoMarker _ _ hAy
  have hcountA : countOcc contactsMarker (lowerL (t.take i)) = 0 := by
    rw [lowerL_take]
    exact (countOcc_zero_split contactsMarker (lowerL t) i hM').1
  have hcountD : countOcc contactsMarker
      (lowerL (t.drop (i + bodyClose.length))) = 0 := by
    rw [lowerL_drop]
    exact (countOcc_zero_split contactsMarker (lowerL t) (i + bodyClose.length) hM').2
  have hfcD : countOcc contactsMarker
      (lowerL (bodyClose ++ t.drop (i + bodyClose.length))) = 0 := by
    rw [lowerL_append, lowerL_bodyClose,
      countOcc_append_tailBlocked contactsMarker contactsMarker_ne_nil _ _
        contactsMarker_tail_body,
      countOcc_zero_of_short contactsMarker bodyClose (by decide), hcountD]
  have hstep1 : removeBlocks contactsMarker (insertBlock t)
      = t.take i ++ (bodyClose ++ t.drop (i + bodyClose.length)) := by
    rw [hy, List.append_assoc, List.append_assoc]
    show removeBlocksGo contactsMarker _ _ = _
    rw [removeBlocksGo_append contactsMarker (t.take i) _
      (footer_block ++ ('\n' :: bodyClose ++ t.drop (i + bodyClose.length)))
      (scan_no_match contactsMarker contactsMarker_ne_nil _ _ '<' hcountA
        (by rw [lowerL_append]; exact head_append _ block_head)
        contactsMarker_noLt)
      (by simp only [List.length_append]; omega)]
    have hf2 : (t.take i ++ (footer_block
          ++ ('\n' :: bodyClose ++ t.drop (i + bodyClose.length)))).length + 1
          - (t.take i).length
        = (footer_block ++ ('\n' :: bodyClose
            ++ t.drop (i + bodyClose.length))).length + 1 := by
      simp only [List.length_append]
      omega
    rw [hf2]
    rw [removeBlocksGo_consume contactsMarker _ footer_block
      ('\n' :: bodyClose ++ t.drop (i + bodyClose.length)) 666
      (marker_prefix_block_append _) (block_divClose_find_append _)
      block_consume_length]
    have hdw : (('\n' :: bodyClose ++ t.drop (i + bodyClose.length)) :
        Str).dropWhile isPySpace
        = bodyClose ++ t.drop (i + bodyClose.length) := by
      rw [show (('\n' :: bodyClose ++ t.drop (i + bodyClose.length)) : Str)
          = '\n' :: (bodyClose ++ t.drop (i + bodyClose.length)) from rfl]
      rw [List.dropWhile_cons]
      rw [if_pos (by decide : isPySpace '\n' = true)]
      exact dropWhile_nonspace (head_append _ bodyClose_head) (by decide)
    rw [hdw, removeBlocksGo_id contactsMarker _ _ hfcD]
  have hX : countMarker (t.take i
      ++ (bodyClose ++ t.drop (i + bodyClose.length))) = 0 := by
    rw [countMarker, lowerL_append]
    rw [countOcc_append_headBlocked contactsMarker contactsMarker_ne_nil _ _ '<'
      (by rw [lowerL_append, lowerL_bodyClose]; exact head_append _ bodyClose_head)
      contactsMarker_noLt]
    rw [hcountA, hfcD]
  show countMarker (insertBlock (removeBlocks contactsMarker
    (removeBlocks autoMarker (insertBlock t)))) = 1
  rw [hauto, hstep1]
  exact insertBlock_count _ hX

/-- Second run, append branch: the scanner removes the appended block and its
preceding newline (absorbed by nothing — the trailing newline is consumed as
part of the match's `\s*`), leaving the original text plus one newline, which
is still marker-free. -/
theorem run2_append (t : Str) (hM : countMarker t = 0) (hA : countAuto t = 0)
    (hfo : findOcc footerClose (lowerL t) = none)
    (hbo : findOcc bodyClose (lowerL t) = none) :
    countMarker (insert_footer (insertBlock t)) = 1 := by
  have hM' : countOcc contactsMarker (lowerL t) = 0 := hM
  have hA' : countOcc autoMarker (lowerL t) = 0 := hA
  have hy : insertBlock t = t ++ '\n' :: footer_block ++ ['\n'] := by
    simp only [insertBlock, hfo, hbo]
  have hAy : countOcc autoMarker (lowerL (insertBlock t)) = 0 := by
    rw [hy, List.append_assoc, lowerL_append]
    rw [show (('\n' :: footer_block) ++ ['\n'] : Str)
        = '\n' :: (footer_block ++ ['\n']) from rfl]
    rw [show lowerL ('\n' :: (footer_block ++ ['\n']))
        = '\n' :: (lowerL footer_block ++ ['\n']) from by
      rw [show lowerL ('\n' :: (footer_block ++ ['\n']))
          = '\n' :: lowerL (footer_block ++ ['\n']) from rfl, lowerL_append, lowerL_nl]]
    rw [countOcc_append_headBlocked autoMarker autoMarker_ne_nil (lowerL t)
      ('\n' :: (lowerL footer_block ++ ['\n'])) '\n' rfl autoMarker_noNl]
    rw [countOcc_cons_nohead autoMarker '\n' '<' _ autoMarker_head (by decide)]
    rw [countOcc_append_tailBlocked autoMarker autoMarker_ne_nil _ _
      autoMarker_tail_block]
    rw [hA', count_auto_block, countOcc_zero_of_short autoMarker ['\n'] (by decide)]
  have hauto : removeBlocks autoMarker (insertBlock t) = insertBlock t :=
    removeBlocksGo_id autoMarker _ _ hAy
  have hcountA : countOcc contactsMarker (lowerL (t ++ ['\n'])) = 0 := by
    rw [lowerL_append, lowerL_nl,
      countOcc_append_headBlocked contactsMarker contactsMarker_ne_nil _ ['\n'] '\n'
        rfl contactsMarker_noNl,
      hM', countOcc_zero_of_short contactsMarker ['\n'] (by decide)]
  have hstep1 : removeBlocks contactsMarker (insertBlock t) = t ++ ['\n'] := by
    rw [hy]
    rw [show (t ++ '\n' :: footer_block ++ ['\n'] : Str)
        = (t ++ ['\n']) ++ (footer_block ++ ['\n']) from by
      rw [List.append_assoc, List.append_assoc]
      rw [show (('\n' :: footer_block) ++ ['\n'] : Str)
          = '\n' :: (footer_block ++ ['\n']) from rfl]
      rw [List.append_cons t '\n' (footer_block ++ ['\n']), List.append_assoc]]
    show removeBlocksGo contactsMarker _ _ = _
    rw [removeBlocksGo_append contactsMarker (t ++ ['\n']) _ (footer_block ++ ['\n'])
      (scan_no_match contactsMarker contactsMarker_ne_nil _ _ '<' hcountA
        (by rw [lowerL_append]; exact head_append _ block_head)
        contactsMarker_noLt)
      (by simp only [List.length_append]; omega)]
    have hf2 : ((t ++ ['\n']) ++ (footer_block ++ ['\n'])).length + 1
          - (t ++ ['\n']).length
        = (footer_block ++ ['\n']).length + 1 := by
      simp only [List.length_append]
      omega
    rw [hf2]
    rw [removeBlocksGo_consume contactsMarker _ footer_block ['\n'] 666
      (marker_prefix_block_append _) (block_divClose_find_append _)
      block_consume_length]
    rw [show (['\n'] : Str).dropWhile isPySpace = [] from by decide]
    rw [removeBlocksGo_nil, List.append_nil]
  show countMarker (insertBlock (removeBlocks contactsMarker
    (removeBlocks autoMarker (insertBlock t)))) = 1
  rw [hauto, hstep1]
  exact insertBlock_count _ hcountA

/-- C10 counterexample: the claim asserts every input yields exactly one
contact block.  An input containing the marker `<div id="contacts-ethicops">`
with no later `</div>` defeats the removal regex (which requires a closing
tag), so the stale marker survives and the output contains two marker
occurrences. -/
theorem c10_unclosed_marker_counterexample :
    countMarker (insert_footer (lc "<div id=\"contacts-ethicops\">x")) = 2 := by decide

/-- C10 as amended: for every input containing no contact-block marker and no
legacy `auto-contacts` marker (case-insensitively), the output of
`insert_footer` contains exactly one `<div id="contacts-ethicops"` marker
occurrence — the fresh block inserted before the first `</footer>`, else
before the first `</body>`, else appended — and a repeated run still yields
exactly one, so runs never accumulate duplicate footer blocks. -/
theorem c10_single_block_amended (h : Str) (hM : countMarker h = 0)
    (hA : countAuto h = 0) :
    countMarker (insert_footer h) = 1 ∧
    countMarker (insert_footer (insert_footer h)) = 1 := by
  have hif : insert_footer h = insertBlock h := by
    show insertBlock (removeBlocks contactsMarker (removeBlocks autoMarker h))
      = insertBlock h
    rw [show removeBlocks autoMarker h = h from removeBlocksGo_id autoMarker _ h hA,
      show removeBlocks contactsMarker h = h from removeBlocksGo_id contactsMarker _ h hM]
  constructor
  · rw [hif]
    exact insertBlock_count h hM
  · rw [hif]
    cases hfo : findOcc footerClose (lowerL h) with
    | some i => exact run2_footer h i hM hA hfo
    | none =>
      cases hbo : findOcc bodyClose (lowerL h) with
      | some i => exact run2_body h i hM hA hfo hbo
      | none => exact run2_append h hM hA hfo hbo

/-- C10 amended witness on a concrete marker-free page with a body tag. -/
theorem c10_single_block_amended_witness :
    countMarker (insert_footer (lc "<html><body>hi</body></html>")) = 1 ∧
    countMarker (insert_footer (insert_footer (lc "<html><body>hi</body></html>"))) = 1 :=
  c10_single_block_amended (lc "<html><body>hi</body></html>") (by decide) (by decide)

end EmailTool

end EthicOps
